import Mathlib

/-!
# pixelsrc — formal model and verification

A shallow embedding of the pixelsrc core engine: the tolerant PXL parser,
the canonical formatter, the color utility, the semantic model and
validator, the renderer, the PNG codec boundary, the PNG importer and the
stateful registry, together with theorems checking the specified
properties.

The engine itself ships as a native extension; the repository carries its
Python surface (`pixelsrc/__init__.py`) and its test suite.  Definitions
for the engine are therefore modelled from the specification document,
following its algorithm descriptions and the behaviour pinned by the test
suite; each such definition says so in its doc comment.
-/

namespace Pixelsrc

/-! ## Character and digit utilities -/

/-- The decimal digit character for `d < 10`. -/
def digitChar (d : Nat) : Char := Char.ofNat (48 + d)

/-- Decimal digits of `n`, most significant first, by fuel recursion so
that the kernel can evaluate it. -/
def natCharsF : Nat → Nat → List Char
  | 0, _ => []
  | f+1, n => if n < 10 then [digitChar n] else natCharsF f (n / 10) ++ [digitChar (n % 10)]

/-- Decimal digits of `n`, most significant first. -/
def natChars (n : Nat) : List Char := natCharsF (n + 1) n

/-- Decimal rendering of an integer (minus sign, then digits). -/
def intChars (n : Int) : List Char :=
  if n < 0 then '-' :: natChars n.natAbs else natChars n.toNat

/-- String form of a natural number. -/
def natStr (n : Nat) : String := String.mk (natChars n)

/-- Accumulate one decimal digit character onto a value. -/
def digitStep (v : Nat) (c : Char) : Nat := v * 10 + (c.toNat - 48)

/-- `n` spaces. -/
def spaces : Nat → List Char
  | 0 => []
  | n+1 => ' ' :: spaces n

/-- Count the newline characters of a list. -/
def nlCount (cs : List Char) : Nat := (cs.filter (· = '\n')).length

/-- Executable infix test on character lists, for "message mentions X"
style properties. -/
def infixOf : List Char → List Char → Bool
  | _, [] => false
  | pat, c :: cs => decide (pat <+: (c :: cs)) || infixOf pat cs

/-- `strContains s pat`: `pat` occurs inside `s` (or `pat` is empty). -/
def strContains (s pat : String) : Bool :=
  pat.data.isEmpty || decide (pat.data <+: s.data) || infixOf pat.data s.data

/-- Lexicographic comparison of character lists by code point. -/
def charsLe : List Char → List Char → Bool
  | [], _ => true
  | _ :: _, [] => false
  | c :: cs, d :: ds =>
    if c.toNat < d.toNat then true
    else if d.toNat < c.toNat then false
    else charsLe cs ds

/-- Lexicographic string order by code point, as Python `sorted` uses. -/
def strLe (a b : String) : Bool := charsLe a.data b.data

/-- Insertion into a `strLe`-sorted list. -/
def insortStr (x : String) : List String → List String
  | [] => [x]
  | y :: ys => if strLe x y then x :: y :: ys else y :: insortStr x ys

/-- Insertion sort by `strLe`; Python's `sorted` on string lists. -/
def sortStr : List String → List String
  | [] => []
  | x :: xs => insortStr x (sortStr xs)

/-! ## The parsed object model

The parser produces relaxed-JSON values: strings, integers, arrays and
objects.  Arrays and object field lists are their own inductive spines so
that every function on them is structural and kernel-reducible. -/

mutual
inductive JVal where
  | str (s : String)
  | num (n : Int)
  | arr (xs : JArr)
  | obj (fs : JObj)

inductive JArr where
  | nil
  | cons (v : JVal) (rest : JArr)

inductive JObj where
  | nil
  | cons (k : String) (v : JVal) (rest : JObj)
end

namespace JObj

/-- First value bound to key `k`, as relaxed-JSON lookup. -/
def lookup (k : String) : JObj → Option JVal
  | .nil => none
  | .cons k2 v rest => if k2 = k then some v else lookup k rest

/-- The field list as a Lean list. -/
def toList : JObj → List (String × JVal)
  | .nil => []
  | .cons k v rest => (k, v) :: toList rest

/-- Keep only the fields whose key satisfies `p`. -/
def filterKeys (p : String → Bool) : JObj → JObj
  | .nil => .nil
  | .cons k v rest => if p k then .cons k v (filterKeys p rest) else filterKeys p rest

/-- Append two field lists. -/
def append : JObj → JObj → JObj
  | .nil, o => o
  | .cons k v rest, o => .cons k v (append rest o)

end JObj

namespace JArr

/-- The element list as a Lean list. -/
def toList : JArr → List JVal
  | .nil => []
  | .cons v rest => v :: toList rest

end JArr

/-- Build a `JArr` from a list. -/
def jarrOf : List JVal → JArr
  | [] => .nil
  | v :: vs => .cons v (jarrOf vs)

/-- Build a `JObj` from a list of fields. -/
def jobjOf : List (String × JVal) → JObj
  | [] => .nil
  | (k, v) :: fs => .cons k v (jobjOf fs)

/-! ## Canonical key order

The formatter emits a stable per-type key order: the keys named for the
object's `type` come first, in a fixed order, then all remaining fields in
their original order.  Reordering is a concatenation of key filters, which
makes its idempotence a matter of filter algebra. -/

/-- The canonical leading keys for each object type (spec §4.6). -/
def keyOrder (t : String) : List String :=
  if t = "palette" then ["type", "name", "colors"]
  else if t = "sprite" then ["type", "name", "size", "width", "height", "palette", "regions"]
  else if t = "variant" then ["type", "name", "base", "palette"]
  else if t = "animation" then ["type", "name", "frames", "duration"]
  else ["type", "name"]

/-- The `type` value of an object, when it is a string. -/
def typeOf (o : JObj) : String :=
  match o.lookup "type" with
  | some (.str t) => t
  | _ => ""

/-- Concatenate the fields matching each key of `ks`, in that order. -/
def bucketFields (o : JObj) : List String → JObj
  | [] => .nil
  | k :: ks => (o.filterKeys (· = k)).append (bucketFields o ks)

/-- Stable per-type reordering of an object's fields: canonical keys
first, remaining fields after, each group in original order. -/
def canonF (o : JObj) : JObj :=
  let ks := keyOrder (typeOf o)
  (bucketFields o ks).append (o.filterKeys (fun k => !(ks.contains k)))

/-! ## The canonical printer

One printer serves both textual forms the engine emits: `pretty = true`
is the formatter's multi-line layout (two-space indentation, quoted keys,
single-space array separators), `pretty = false` the compact single-line
form used for JSONL.  The two differ only in whitespace. -/

/-- Escape a string body: quote and backslash get a backslash. -/
def escChars : List Char → List Char
  | [] => []
  | c :: cs => if c = '"' || c = '\\' then '\\' :: c :: escChars cs else c :: escChars cs

/-- A quoted string literal. -/
def strChars (s : String) : List Char := '"' :: escChars s.data ++ ['"']

/-- Layout between an object's braces and fields: newline-and-indent when
pretty, a single space when compact. -/
def nlInd (p : Bool) (n : Nat) : List Char :=
  if p then '\n' :: spaces n else [' ']

mutual
/-- Canonical rendering of a value at indent `ind` (spec §4.6). -/
def pvF (p : Bool) (ind : Nat) : JVal → List Char
  | .str s => strChars s
  | .num n => intChars n
  | .arr xs => '[' :: pvArr p ind xs ++ [']']
  | .obj .nil => ['\x7b', '\x7d']
  | .obj (.cons k v rest) =>
    '\x7b' :: (nlInd p (ind + 2) ++ pvObj p (ind + 2) (.cons k v rest) ++ nlInd p ind) ++ ['\x7d']

/-- Array elements, separated by comma-space. -/
def pvArr (p : Bool) (ind : Nat) : JArr → List Char
  | .nil => []
  | .cons v .nil => pvF p ind v
  | .cons v rest => pvF p ind v ++ ',' :: ' ' :: pvArr p ind rest

/-- Object fields, quoted keys, separated by comma and field layout. -/
def pvObj (p : Bool) (ind : Nat) : JObj → List Char
  | .nil => []
  | .cons k v .nil => strChars k ++ ':' :: ' ' :: pvF p ind v
  | .cons k v rest =>
    (strChars k ++ ':' :: ' ' :: pvF p ind v) ++ ',' :: nlInd p ind ++ pvObj p ind rest
end

/-- A top-level object in canonical form: fields reordered per type, then
rendered. -/
def objChars (p : Bool) (o : JObj) : List Char := pvF p 0 (.obj (canonF o))

/-- Join printed objects: a blank line between pretty objects, a newline
between compact ones. -/
def corpusSep (p : Bool) : List Char := if p then ['\n', '\n'] else ['\n']

/-- A whole corpus in canonical form. -/
def corpusChars (p : Bool) : List JObj → List Char
  | [] => []
  | [o] => objChars p o
  | o :: os => objChars p o ++ corpusSep p ++ corpusChars p os

/-! ## Tokens and the lexer

The lexer is a character-at-a-time fold machine, so that processing a
concatenation of texts is `List.foldl_append`.  Strings track escapes,
numbers and identifiers accumulate until a non-member character arrives,
and any unexpected character drives the machine into an absorbing error
mode (the literal is then malformed). -/

inductive Tok where
  | lbrace | rbrace | lbrack | rbrack | colon | comma
  | tstr (cs : List Char)
  | tnum (n : Int)
  | tid (s : String)

/-- First character of an unquoted identifier key. -/
def idStart (c : Char) : Bool := c.isAlpha || c = '_'

/-- Later character of an unquoted identifier key. -/
def idChar (c : Char) : Bool := c.isAlphanum || c = '_'

/-- The token a single delimiter character denotes, if any. -/
def delimTok (c : Char) : Option Tok :=
  if c = '\x7b' then some .lbrace
  else if c = '\x7d' then some .rbrace
  else if c = '[' then some .lbrack
  else if c = ']' then some .rbrack
  else if c = ':' then some .colon
  else if c = ',' then some .comma
  else none

inductive LxMode where
  | top
  | instr (cur : List Char) (esc : Bool)
  | innum (neg : Bool) (v : Nat) (hasd : Bool)
  | inid (cur : List Char)
  | lerr

structure LxSt where
  toks : List Tok
  mode : LxMode

/-- Lexer behaviour on a character seen from the top mode. -/
def lxTop (toks : List Tok) (c : Char) : LxSt :=
  if c.isWhitespace then ⟨toks, .top⟩
  else if c = '"' then ⟨toks, .instr [] false⟩
  else
    match delimTok c with
    | some t => ⟨t :: toks, .top⟩
    | none =>
      if c.isDigit then ⟨toks, .innum false (c.toNat - 48) true⟩
      else if c = '-' then ⟨toks, .innum true 0 false⟩
      else if idStart c then ⟨toks, .inid [c]⟩
      else ⟨toks, .lerr⟩

/-- One lexer step. -/
def lxStep (st : LxSt) (c : Char) : LxSt :=
  match st.mode with
  | .lerr => st
  | .top => lxTop st.toks c
  | .instr cur esc =>
    if esc then ⟨st.toks, .instr (c :: cur) false⟩
    else if c = '\\' then ⟨st.toks, .instr cur true⟩
    else if c = '"' then ⟨Tok.tstr cur.reverse :: st.toks, .top⟩
    else ⟨st.toks, .instr (c :: cur) false⟩
  | .innum neg v hasd =>
    if c.isDigit then ⟨st.toks, .innum neg (digitStep v c) true⟩
    else if hasd then lxTop (Tok.tnum (if neg then -(v : Int) else (v : Int)) :: st.toks) c
    else ⟨st.toks, .lerr⟩
  | .inid cur =>
    if idChar c then ⟨st.toks, .inid (c :: cur)⟩
    else lxTop (Tok.tid (String.mk cur.reverse) :: st.toks) c

/-- Flush a pending token at end of input. -/
def lxFinal (st : LxSt) : Option (List Tok) :=
  match st.mode with
  | .top => some st.toks.reverse
  | .innum neg v hasd =>
    if hasd then some (Tok.tnum (if neg then -(v : Int) else (v : Int)) :: st.toks).reverse
    else none
  | .inid cur => some (Tok.tid (String.mk cur.reverse) :: st.toks).reverse
  | _ => none

/-- Lex a character list into tokens, or fail. -/
def lex (cs : List Char) : Option (List Tok) := lxFinal (cs.foldl lxStep ⟨[], .top⟩)

/-! ## The token parser

Fuel-based recursive descent.  A non-singleton array or object recurses
on a synthetic re-opened bracket, so a single structurally-recursive
function parses every form. -/

/-- A field key: quoted string or unquoted identifier. -/
def pKey : Tok → Option String
  | .tstr cs => some (String.mk cs)
  | .tid s => some s
  | _ => none

/-- Parse one value from the front of the token list. -/
def pVal : Nat → List Tok → Option (JVal × List Tok)
  | 0, _ => none
  | f+1, ts =>
    match ts with
    | .tstr cs :: ts1 => some (.str (String.mk cs), ts1)
    | .tnum n :: ts1 => some (.num n, ts1)
    | .lbrack :: ts1 =>
      match ts1 with
      | .rbrack :: ts2 => some (.arr .nil, ts2)
      | _ =>
        match pVal f ts1 with
        | some (v, ts2) =>
          match ts2 with
          | .comma :: ts3 =>
            match pVal f (.lbrack :: ts3) with
            | some (.arr vs, ts4) => some (.arr (.cons v vs), ts4)
            | _ => none
          | .rbrack :: ts3 => some (.arr (.cons v .nil), ts3)
          | _ => none
        | none => none
    | .lbrace :: ts1 =>
      match ts1 with
      | .rbrace :: ts2 => some (.obj .nil, ts2)
      | tk :: ts2 =>
        match pKey tk with
        | some k =>
          match ts2 with
          | .colon :: ts3 =>
            match pVal f ts3 with
            | some (v, ts4) =>
              match ts4 with
              | .comma :: ts5 =>
                match pVal f (.lbrace :: ts5) with
                | some (.obj fs, ts6) => some (.obj (.cons k v fs), ts6)
                | _ => none
              | .rbrace :: ts5 => some (.obj (.cons k v .nil), ts5)
              | _ => none
            | none => none
          | _ => none
        | none => none
      | [] => none
    | _ => none

/-- Parse one complete object literal from a chunk of text. -/
def parseLit (cs : List Char) : Option JObj :=
  match lex cs with
  | some ts =>
    match pVal (ts.length + 1) ts with
    | some (.obj fs, []) => some fs
    | _ => none
  | none => none

/-! ## The literal splitter

Boundary detection tracks brace nesting depth and string escaping
(spec §4.1), one character at a time, again as a fold machine.  Each
chunk records the 1-based line on which it starts.  Text at depth zero
that is not an object literal is collected to the end of its line and
becomes a malformed chunk. -/

structure Chunk where
  line : Nat
  text : List Char

inductive SpMode where
  | idle
  | junk (sl : Nat) (cur : List Char)
  | lit (sl : Nat) (depth : Nat) (instr : Bool) (esc : Bool) (cur : List Char)

structure SpSt where
  line : Nat
  out : List Chunk
  mode : SpMode

/-- One splitter step. -/
def spStep (st : SpSt) (c : Char) : SpSt :=
  let line2 := if c = '\n' then st.line + 1 else st.line
  match st.mode with
  | .idle =>
    if c = '\x7b' then ⟨line2, st.out, .lit st.line 1 false false ['\x7b']⟩
    else if c.isWhitespace then ⟨line2, st.out, .idle⟩
    else ⟨line2, st.out, .junk st.line [c]⟩
  | .junk sl cur =>
    if c = '\n' then ⟨line2, ⟨sl, cur.reverse⟩ :: st.out, .idle⟩
    else if c = '\x7b' then ⟨line2, ⟨sl, cur.reverse⟩ :: st.out, .lit st.line 1 false false ['\x7b']⟩
    else ⟨line2, st.out, .junk sl (c :: cur)⟩
  | .lit sl depth instr esc cur =>
    if instr then
      if esc then ⟨line2, st.out, .lit sl depth true false (c :: cur)⟩
      else if c = '\\' then ⟨line2, st.out, .lit sl depth true true (c :: cur)⟩
      else if c = '"' then ⟨line2, st.out, .lit sl depth false false (c :: cur)⟩
      else ⟨line2, st.out, .lit sl depth true false (c :: cur)⟩
    else
      if c = '"' then ⟨line2, st.out, .lit sl depth true false (c :: cur)⟩
      else if c = '\x7b' then ⟨line2, st.out, .lit sl (depth + 1) false false (c :: cur)⟩
      else if c = '\x7d' then
        if depth = 1 then ⟨line2, ⟨sl, (c :: cur).reverse⟩ :: st.out, .idle⟩
        else ⟨line2, st.out, .lit sl (depth - 1) false false (c :: cur)⟩
      else ⟨line2, st.out, .lit sl depth false false (c :: cur)⟩

/-- Emit whatever chunk is pending at end of input. -/
def spFinal (st : SpSt) : List Chunk :=
  match st.mode with
  | .idle => st.out.reverse
  | .junk sl cur => (⟨sl, cur.reverse⟩ :: st.out).reverse
  | .lit sl _ _ _ cur => (⟨sl, cur.reverse⟩ :: st.out).reverse

/-- Split text into top-level literal chunks with their starting lines. -/
def splitLiterals (cs : List Char) : List Chunk :=
  spFinal (cs.foldl spStep ⟨1, [], .idle⟩)

/-! ## The parser (spec §4.1)

`Modelled from the spec:` the native parser is not in the Python tree;
this follows §4.1 — each top-level literal becomes either a typed object
record or a `warning`/`line` diagnostic, and one bad literal never aborts
the batch. -/

inductive ParseItem where
  | obj (line : Nat) (fields : JObj)
  | warn (line : Nat) (msg : String)

/-- Parse one chunk into an item. -/
def itemOfChunk (ch : Chunk) : ParseItem :=
  match parseLit ch.text with
  | some fs => .obj ch.line fs
  | none => .warn ch.line "Parse error"

/-- Parse a character list into an ordered item sequence. -/
def parseChars (cs : List Char) : List ParseItem :=
  (splitLiterals cs).map itemOfChunk

/-- `parse(text)`: ordered sequence of typed object records and
line-tagged warnings. -/
def parse (text : String) : List ParseItem := parseChars text.data

/-- The field lists of a parse result, when no literal was malformed. -/
def itemsFields : List ParseItem → Option (List JObj)
  | [] => some []
  | .obj _ fs :: rest => (itemsFields rest).map (fs :: ·)
  | .warn _ _ :: _ => none

/-! ## Error classes (spec §7)

Caller-input errors and filesystem-class errors are distinct classes, so
a caller can distinguish bad data from a bad location. -/

inductive PxlErr where
  | valueError (msg : String)
  | osError (msg : String)

/-- Whether an error is the filesystem class. -/
def PxlErr.isOs : PxlErr → Bool
  | .osError _ => true
  | .valueError _ => false

/-! ## Color utility (spec §4.7)

`Modelled from the spec:` the native color utility is not in the Python
tree; `parse_color` accepts named colors, 3/6/8-digit hex, `rgb()` and
`hsl()` functional forms and `transparent`; canonical form is lowercase
hex, 6 digits when fully opaque, 8 otherwise. -/

structure RGBA where
  r : Nat
  g : Nat
  b : Nat
  a : Nat

/-- Hex digit value of a character. -/
def hexVal (c : Char) : Option Nat :=
  if c.isDigit then some (c.toNat - 48)
  else if 97 ≤ c.toNat ∧ c.toNat ≤ 102 then some (c.toNat - 87)
  else if 65 ≤ c.toNat ∧ c.toNat ≤ 70 then some (c.toNat - 55)
  else none

/-- Two hex digits as one byte. -/
def hexPair (c d : Char) : Option Nat := do
  let x ← hexVal c
  let y ← hexVal d
  pure (16 * x + y)

/-- Parse the digits after a `#`. -/
def parseHexDigits : List Char → Option RGBA
  | [r, g, b] => do
    let x ← hexVal r
    let y ← hexVal g
    let z ← hexVal b
    pure ⟨17 * x, 17 * y, 17 * z, 255⟩
  | [r1, r2, g1, g2, b1, b2] => do
    let x ← hexPair r1 r2
    let y ← hexPair g1 g2
    let z ← hexPair b1 b2
    pure ⟨x, y, z, 255⟩
  | [r1, r2, g1, g2, b1, b2, a1, a2] => do
    let x ← hexPair r1 r2
    let y ← hexPair g1 g2
    let z ← hexPair b1 b2
    let w ← hexPair a1 a2
    pure ⟨x, y, z, w⟩
  | _ => none

/-- The named colors the utility recognises. -/
def namedColors : List (String × RGBA) :=
  [("red", ⟨255, 0, 0, 255⟩), ("green", ⟨0, 128, 0, 255⟩), ("blue", ⟨0, 0, 255, 255⟩),
   ("white", ⟨255, 255, 255, 255⟩), ("black", ⟨0, 0, 0, 255⟩), ("yellow", ⟨255, 255, 0, 255⟩),
   ("cyan", ⟨0, 255, 255, 255⟩), ("magenta", ⟨255, 0, 255, 255⟩),
   ("orange", ⟨255, 165, 0, 255⟩), ("purple", ⟨128, 0, 128, 255⟩),
   ("pink", ⟨255, 192, 203, 255⟩), ("brown", ⟨165, 42, 42, 255⟩),
   ("gray", ⟨128, 128, 128, 255⟩), ("grey", ⟨128, 128, 128, 255⟩),
   ("transparent", ⟨0, 0, 0, 0⟩)]

/-- Strip surrounding whitespace. -/
def trimChars (cs : List Char) : List Char :=
  ((cs.dropWhile Char.isWhitespace).reverse.dropWhile Char.isWhitespace).reverse

/-- Split on commas (no nesting occurs inside `rgb`/`hsl` arguments). -/
def splitComma (cs : List Char) : List (List Char) :=
  let step := fun (acc : List (List Char) × List Char) (c : Char) =>
    if c = ',' then (acc.2.reverse :: acc.1, []) else (acc.1, c :: acc.2)
  let fin := cs.foldl step ([], [])
  (fin.2.reverse :: fin.1).reverse

/-- Read a plain decimal natural. -/
def readNat? (cs : List Char) : Option Nat :=
  if cs ≠ [] ∧ cs.all Char.isDigit then some (cs.foldl digitStep 0) else none

/-- Read a decimal natural with a trailing percent sign. -/
def readPercent? (cs : List Char) : Option Nat :=
  match cs.reverse with
  | '%' :: rest => readNat? rest.reverse
  | _ => none

/-- Parse the argument list of a functional form `name(a, b, c)`. -/
def funArgs (fname : String) (cs : List Char) : Option (List (List Char)) :=
  let pre := fname.data ++ ['(']
  if pre.isPrefixOf cs then
    match (cs.drop pre.length).reverse with
    | ')' :: rest => some ((splitComma rest.reverse).map trimChars)
    | _ => none
  else none

/-- Clamp to a byte. -/
def clamp255 (n : Nat) : Nat := min n 255

/-- One HSL channel scaled to 0..10000, rounded to a byte. -/
def hslByte (v : Int) : Nat := clamp255 (((v * 255 + 5000) / 10000).toNat)

/-- HSL to RGBA, all-integer arithmetic; hue in degrees, s and l in
percent. -/
def hslToRgba (h s l : Nat) : RGBA :=
  let hm : Int := (h % 360 : Nat)
  let c2 : Int := (100 - (2 * (l : Int) - 100).natAbs) * (s : Int)
  let seg : Int := hm % 120
  let x2 : Int := c2 * (60 - (seg - 60).natAbs) / 60
  let m2 : Int := 100 * (l : Int) - c2 / 2
  let sector := h % 360 / 60
  let rgb :=
    if sector = 0 then (c2, x2, (0 : Int))
    else if sector = 1 then (x2, c2, 0)
    else if sector = 2 then (0, c2, x2)
    else if sector = 3 then (0, x2, c2)
    else if sector = 4 then (x2, 0, c2)
    else (c2, 0, x2)
  ⟨hslByte (rgb.1 + m2), hslByte (rgb.2.1 + m2), hslByte (rgb.2.2 + m2), 255⟩

/-- Core color reader: the RGBA value a color literal denotes, if any. -/
def parseColorVal (s : String) : Option RGBA :=
  let cs := trimChars s.data
  match cs with
  | '#' :: ds => parseHexDigits ds
  | _ =>
    match (namedColors.filter (fun p => p.1.data = cs)).head? with
    | some p => some p.2
    | none =>
      match funArgs "rgb" cs with
      | some [ra, ga, ba] => do
        let r ← readNat? ra
        let g ← readNat? ga
        let b ← readNat? ba
        pure ⟨clamp255 r, clamp255 g, clamp255 b, 255⟩
      | _ =>
        match funArgs "hsl" cs with
        | some [ha, sa, la] => do
          let h ← readNat? ha
          let sp ← readPercent? sa
          let lp ← readPercent? la
          pure (hslToRgba h sp lp)
        | _ => none

/-- Lowercase hex character for `d < 16`. -/
def hexChar (d : Nat) : Char := if d < 10 then digitChar d else Char.ofNat (87 + d)

/-- Two lowercase hex digits of a byte. -/
def hexByte (n : Nat) : List Char := [hexChar (n / 16 % 16), hexChar (n % 16)]

/-- Canonical textual form: lowercase hex, 6 digits when opaque, else 8. -/
def colorStr (c : RGBA) : String :=
  String.mk ('#' :: hexByte c.r ++ hexByte c.g ++ hexByte c.b ++
    (if c.a = 255 then [] else hexByte c.a))

/-- `parse_color(text)`: canonical form or a caller-input error. -/
def parse_color (s : String) : Except PxlErr String :=
  match parseColorVal s with
  | some c => .ok (colorStr c)
  | none => .error (.valueError ("Invalid color: " ++ s))

/-- One interpolated channel: endpoints exact, interior rounded
half-up linear interpolation across `n` samples. -/
def rampChan (x y i n : Nat) : Nat :=
  if i = 0 then x
  else if i = n - 1 then y
  else (2 * (x * (n - 1 - i) + y * i) + (n - 1)) / (2 * (n - 1))

/-- Channelwise interpolation including alpha. -/
def rampColor (c1 c2 : RGBA) (i n : Nat) : RGBA :=
  ⟨rampChan c1.r c2.r i n, rampChan c1.g c2.g i n,
   rampChan c1.b c2.b i n, rampChan c1.a c2.a i n⟩

/-- `generate_ramp(from, to, steps)`: linear per-channel interpolation
across `steps` samples inclusive of both endpoints (spec §4.7). -/
def generate_ramp (a b : String) (n : Nat) : Except PxlErr (List String) :=
  match parseColorVal a, parseColorVal b with
  | some ca, some cb =>
    if n = 0 then .error (.valueError "steps must be at least 1")
    else .ok ((List.range n).map (fun i => colorStr (rampColor ca cb i n)))
  | _, _ => .error (.valueError "invalid color")

/-! ## Semantic model (spec §3, §4.2)

`Modelled from the spec:` the native semantic model is not in the Python
tree; sprites carry a name, positive dimensions, a palette reference
(inline map or name) and z-ordered regions of points or rectangles. -/

inductive Geom where
  | pts (l : List (Int × Int))
  | rect (x y w h : Int)

structure RegionRec where
  token : String
  geom : Geom
  z : Int

inductive PaletteRef where
  | inline (m : List (String × String))
  | named (s : String)

structure SpriteRec where
  name : String
  width : Nat
  height : Nat
  palette : PaletteRef
  regions : List RegionRec

/-- A `[x, y]` point. -/
def pointOf : JVal → Option (Int × Int)
  | .arr (.cons (.num x) (.cons (.num y) .nil)) => some (x, y)
  | _ => none

/-- Token-to-color map of an inline palette or a palette's `colors`. -/
def colorMapOf (fs : JObj) : List (String × String) :=
  fs.toList.filterMap (fun kv =>
    match kv.2 with
    | .str c => some (kv.1, c)
    | _ => none)

/-- A region record from a `regions` entry: explicit points or a
rectangle, with integer paint order `z` defaulting to 0. -/
def regionOf (tok : String) : JVal → Option RegionRec
  | .obj fs =>
    let z : Int :=
      match fs.lookup "z" with
      | some (.num z) => z
      | _ => 0
    match fs.lookup "points" with
    | some (.arr pts) => some ⟨tok, .pts (pts.toList.filterMap pointOf), z⟩
    | _ =>
      match fs.lookup "rect" with
      | some (.arr (.cons (.num x) (.cons (.num y) (.cons (.num w) (.cons (.num h) .nil))))) =>
        some ⟨tok, .rect x y w h, z⟩
      | _ => none
  | _ => none

/-- The sprite record an object denotes: name, positive `size` (or
`width`/`height`), palette reference and regions. -/
def spriteOfObj (o : JObj) : Option SpriteRec := do
  let name ←
    match o.lookup "name" with
    | some (.str s) => some s
    | _ => none
  let wh ←
    match o.lookup "size" with
    | some (.arr (.cons (.num w) (.cons (.num h) .nil))) =>
      if 0 < w ∧ 0 < h then some (w.toNat, h.toNat) else none
    | _ =>
      match o.lookup "width", o.lookup "height" with
      | some (.num w), some (.num h) =>
        if 0 < w ∧ 0 < h then some (w.toNat, h.toNat) else none
      | _, _ => none
  let pal :=
    match o.lookup "palette" with
    | some (.str s) => PaletteRef.named s
    | some (.obj fs) => PaletteRef.inline (colorMapOf fs)
    | _ => PaletteRef.inline []
  let regs :=
    match o.lookup "regions" with
    | some (.obj fs) => fs.toList.filterMap (fun kv => regionOf kv.1 kv.2)
    | _ => []
  pure ⟨name, wh.1, wh.2, pal, regs⟩

/-- The first renderable sprite of a parse result. -/
def firstSprite : List ParseItem → Option SpriteRec
  | [] => none
  | .obj _ fs :: rest =>
    if typeOf fs = "sprite" then
      match spriteOfObj fs with
      | some s => some s
      | none => firstSprite rest
    else firstSprite rest
  | .warn _ _ :: rest => firstSprite rest

/-- Name-to-colors pairs of the palette objects of a parse result. -/
def palettesOf : List ParseItem → List (String × List (String × String))
  | [] => []
  | .obj _ fs :: rest =>
    (if typeOf fs = "palette" then
      match fs.lookup "name", fs.lookup "colors" with
      | some (.str n), some (.obj cols) => [(n, colorMapOf cols)]
      | _, _ => []
    else []) ++ palettesOf rest
  | .warn _ _ :: rest => palettesOf rest

/-- Resolve a palette reference against loaded palettes; a missing name
is a warning, not a failure (spec §3). -/
def resolvePalette (pals : List (String × List (String × String))) :
    PaletteRef → List (String × String) × List String
  | .inline m => (m, [])
  | .named s =>
    match (pals.filter (fun p => p.1 = s)).head? with
    | some p => (p.2, [])
    | none => ([], ["Palette " ++ s ++ " not defined"])

/-! ## Renderer (spec §4.3)

`Modelled from the spec:` the native renderer is not in the Python tree;
pixels start fully transparent, regions paint in ascending `z` with
declaration order breaking ties (stable sort), later regions overwriting
earlier ones. -/

structure RenderResult where
  width : Nat
  height : Nat
  pixels : List Nat
  warnings : List String

/-- Insert after every region of smaller-or-equal `z`, so the fold below
is a stable ascending sort. -/
def insertZ (r : RegionRec) : List RegionRec → List RegionRec
  | [] => [r]
  | x :: xs => if x.z ≤ r.z then x :: insertZ r xs else r :: x :: xs

/-- Stable sort of regions by ascending `z`. -/
def sortZ (rs : List RegionRec) : List RegionRec := rs.foldl (fun acc r => insertZ r acc) []

/-- All integer coordinates a geometry covers. -/
def geomCoords : Geom → List (Int × Int)
  | .pts l => l
  | .rect x y w h =>
    (List.range h.toNat).flatMap (fun j => (List.range w.toNat).map (fun i => (x + i, y + j)))

/-- Paint one coordinate if it lies inside the sprite. -/
def paintPoint (w h : Nat) (c : RGBA) (buf : List RGBA) (pt : Int × Int) : List RGBA :=
  if 0 ≤ pt.1 ∧ pt.1 < (w : Int) ∧ 0 ≤ pt.2 ∧ pt.2 < (h : Int) then
    buf.set (pt.2.toNat * w + pt.1.toNat) c
  else buf

/-- Paint one region's coordinates with its token's color; an unresolved
token is skipped with a warning. -/
def paintRegion (w h : Nat) (pm : List (String × String))
    (acc : List RGBA × List String) (r : RegionRec) : List RGBA × List String :=
  match (pm.filter (fun p => p.1 = r.token)).head? with
  | none => (acc.1, acc.2 ++ ["Undefined token " ++ r.token])
  | some p =>
    match parseColorVal p.2 with
    | none => acc
    | some c => ((geomCoords r.geom).foldl (paintPoint w h c) acc.1, acc.2)

/-- Flatten an RGBA buffer to bytes. -/
def flattenRGBA : List RGBA → List Nat
  | [] => []
  | c :: cs => c.r :: c.g :: c.b :: c.a :: flattenRGBA cs

/-- Rasterize a sprite against a resolved palette (spec §4.3). -/
def renderSprite (s : SpriteRec) (pm : List (String × String)) : RenderResult :=
  let init : List RGBA := List.replicate (s.width * s.height) ⟨0, 0, 0, 0⟩
  let fin := (sortZ s.regions).foldl (paintRegion s.width s.height pm) (init, [])
  ⟨s.width, s.height, flattenRGBA fin.1, fin.2⟩

/-- `render_to_rgba(text)`: render the first sprite of the corpus, or an
empty result with a "No sprites found" warning. -/
def render_to_rgba (text : String) : RenderResult :=
  let items := parse text
  match firstSprite items with
  | none => ⟨0, 0, [], ["No sprites found"]⟩
  | some s =>
    let rp := resolvePalette (palettesOf items) s.palette
    let r := renderSprite s rp.1
    ⟨r.width, r.height, r.pixels, r.warnings ++ rp.2⟩

/-! ## PNG codec boundary (spec §4.4)

`Modelled from the spec:` the codec is modelled at its contract — a
deterministic lossless container for an 8-bit RGBA buffer beginning with
the fixed PNG signature; compression internals are not modelled.  Decode
fails with a format error on non-PNG input. -/

/-- The fixed 8-byte PNG signature; its first four bytes are
`\x89 P N G`. -/
def pngSig : List Nat := [137, 80, 78, 71, 13, 10, 26, 10]

/-- A length field: decimal digit bytes, zero-terminated. -/
def encNat (n : Nat) : List Nat := (natChars n).map Char.toNat ++ [0]

/-- Deterministic PNG encoding of an RGBA buffer. -/
def pngEncode (pix : List Nat) (w h : Nat) : List Nat :=
  pngSig ++ encNat w ++ encNat h ++ pix

/-- Read a zero-terminated decimal field. -/
def readNatB : List Nat → Option (Nat × List Nat)
  | [] => none
  | b :: bs =>
    if b = 0 then none
    else
      let rec go (v : Nat) : List Nat → Option (Nat × List Nat)
        | [] => none
        | b2 :: bs2 =>
          if b2 = 0 then some (v, bs2)
          else if 48 ≤ b2 ∧ b2 ≤ 57 then go (v * 10 + (b2 - 48)) bs2
          else none
      if 48 ≤ b ∧ b ≤ 57 then go (b - 48) bs else none

/-- Decode PNG bytes to `(rgba, width, height)`; corrupt input is a
format error. -/
def pngDecode (bytes : List Nat) : Except PxlErr (List Nat × Nat × Nat) :=
  if pngSig.isPrefixOf bytes then
    match readNatB (bytes.drop pngSig.length) with
    | some (w, rest) =>
      match readNatB rest with
      | some (h, pix) =>
        if pix.length = w * h * 4 then .ok (pix, w, h)
        else .error (.valueError "corrupt PNG payload")
      | none => .error (.valueError "corrupt PNG header")
    | none => .error (.valueError "corrupt PNG header")
  else .error (.valueError "not a PNG")

/-- `render_to_png(text)`: PNG bytes of the first sprite, or a
zero-length buffer when the corpus has no sprites. -/
def render_to_png (text : String) : List Nat :=
  let items := parse text
  match firstSprite items with
  | none => []
  | some s =>
    let rp := resolvePalette (palettesOf items) s.palette
    let r := renderSprite s rp.1
    pngEncode r.pixels r.width r.height

/-! ## Formatter (spec §4.6)

`Modelled from the spec:` the native formatter is not in the Python
tree; it parses, then re-serializes canonically, rejecting input that
fails to parse with a format error. -/

/-- `format(text)`: canonical pretty-printing of the whole corpus. -/
def format_pxl (text : String) : Except PxlErr String :=
  match itemsFields (parse text) with
  | some objs => .ok (String.mk (corpusChars true objs))
  | none => .error (.valueError "Input does not parse")

/-! ## Validator (spec §4.2)

`Modelled from the spec:` the native validator is not in the Python
tree; each rule yields one diagnostic string formatted as
`"<SEVERITY>: line N: <message>"`, in source order. -/

/-- A formatted diagnostic. -/
def diagStr (sev : String) (line : Nat) (msg : String) : String :=
  sev ++ ": line " ++ natStr line ++ ": " ++ msg

/-- The recognised `type` values. -/
def knownTypes : List String := ["palette", "sprite", "variant", "animation"]

/-- Diagnostics for a palette object's colors. -/
def paletteDiags (line : Nat) (fs : JObj) : List String :=
  match fs.lookup "colors" with
  | some (.obj cols) =>
    cols.toList.filterMap (fun kv =>
      match kv.2 with
      | .str c =>
        match parseColorVal c with
        | some _ => none
        | none => some (diagStr "ERROR" line ("Invalid color for token " ++ kv.1 ++ ": " ++ c))
      | _ => some (diagStr "ERROR" line ("Invalid color for token " ++ kv.1)))
  | _ => []

/-- Diagnostics for a sprite object: missing named palette, undefined
region tokens. -/
def spriteDiags (pals : List (String × List (String × String))) (line : Nat)
    (fs : JObj) : List String :=
  let palDiag :=
    match fs.lookup "palette" with
    | some (.str s) =>
      if (pals.filter (fun p => p.1 = s)).isEmpty then
        [diagStr "WARNING" line ("Palette " ++ s ++ " not defined")]
      else []
    | _ => []
  let pm : List (String × String) :=
    match fs.lookup "palette" with
    | some (.str s) =>
      match (pals.filter (fun p => p.1 = s)).head? with
      | some p => p.2
      | none => []
    | some (.obj m) => colorMapOf m
    | _ => []
  let tokDiags :=
    match fs.lookup "regions" with
    | some (.obj regs) =>
      regs.toList.filterMap (fun kv =>
        if (pm.filter (fun p => p.1 = kv.1)).isEmpty then
          some (diagStr "WARNING" line ("Undefined token " ++ kv.1))
        else none)
    | _ => []
  palDiag ++ tokDiags

/-- Diagnostics of one parse item, given the corpus palettes and the
`(type, name)` pairs seen so far. -/
def itemDiags (pals : List (String × List (String × String)))
    (seen : List (String × String)) : ParseItem → List String
  | .warn line msg => [diagStr "ERROR" line msg]
  | .obj line fs =>
    match fs.lookup "type" with
    | some (.str t) =>
      if knownTypes.contains t then
        (if t = "palette" then paletteDiags line fs
         else if t = "sprite" then spriteDiags pals line fs
         else []) ++
        (match fs.lookup "name" with
         | some (.str n) =>
           if seen.contains (t, n) then
             [diagStr "WARNING" line ("Duplicate " ++ t ++ " name " ++ n)]
           else []
         | _ => [])
      else [diagStr "WARNING" line ("Unknown type " ++ t)]
    | _ => [diagStr "ERROR" line "Missing required field: type"]

/-- The `(type, name)` pair an item contributes to duplicate tracking. -/
def itemKey : ParseItem → List (String × String)
  | .obj _ fs =>
    match fs.lookup "type", fs.lookup "name" with
    | some (.str t), some (.str n) => [(t, n)]
    | _, _ => []
  | .warn _ _ => []

/-- Fold items into diagnostics in source order. -/
def validateItems (pals : List (String × List (String × String))) :
    List ParseItem → List (String × String) → List String
  | [], _ => []
  | item :: rest, seen =>
    itemDiags pals seen item ++ validateItems pals rest (seen ++ itemKey item)

/-- `validate(text)`: parses, then cross-checks (spec §4.2). -/
def validate (text : String) : List String :=
  let items := parse text
  validateItems (palettesOf items) items []

/-- A readable file system fragment for text reads. -/
def TextFS : Type := String → Option String

/-- `validate_file(path)`: read then validate; an unreadable path is a
filesystem-class error. -/
def validate_file (fs : TextFS) (path : String) : Except PxlErr (List String) :=
  match fs path with
  | none => .error (.osError ("Cannot read file: " ++ path))
  | some text => .ok (validate text)

/-! ## Registry (spec §4.8)

`Modelled from the spec:` the native registry is not in the Python tree;
a stateful accumulator into which later loads merge, never wholesale
replace. -/

/-- Insert-or-replace by key, keeping first-insertion order. -/
def upsert {α : Type} (k : String) (v : α) : List (String × α) → List (String × α)
  | [] => [(k, v)]
  | (k2, v2) :: rest => if k2 = k then (k, v) :: rest else (k2, v2) :: upsert k v rest

structure Registry where
  paletteDefs : List (String × List (String × String))
  spriteDefs : List (String × SpriteRec)

namespace Registry

/-- A fresh, empty registry. -/
def empty : Registry := ⟨[], []⟩

/-- Merge one parsed item into the registry. -/
def loadItem (r : Registry) : ParseItem → Registry
  | .obj _ fs =>
    if typeOf fs = "palette" then
      match fs.lookup "name", fs.lookup "colors" with
      | some (.str n), some (.obj cols) =>
        { r with paletteDefs := upsert n (colorMapOf cols) r.paletteDefs }
      | _, _ => r
    else if typeOf fs = "sprite" then
      match spriteOfObj fs with
      | some s => { r with spriteDefs := upsert s.name s r.spriteDefs }
      | none => r
    else r
  | .warn _ _ => r

/-- `load(text)`: merge parsed objects into persistent storage. -/
def load (r : Registry) (text : String) : Registry :=
  (parse text).foldl loadItem r

/-- `load_file(path)`: read bytes then load, surfacing a filesystem
error when the path cannot be read. -/
def load_file (fs : TextFS) (r : Registry) (path : String) : Except PxlErr Registry :=
  match fs path with
  | none => .error (.osError ("Cannot read file: " ++ path))
  | some text => .ok (r.load text)

/-- `sprites()`: accumulated sprite names in lexical sort order. -/
def sprites (r : Registry) : List String := sortStr (r.spriteDefs.map Prod.fst)

/-- `palettes()`: accumulated palette names in lexical sort order. -/
def palettes (r : Registry) : List String := sortStr (r.paletteDefs.map Prod.fst)

/-- `render(name)`: render against accumulated state; an unknown name
gives an empty-but-valid result with a warning. -/
def render (r : Registry) (name : String) : RenderResult :=
  match (r.spriteDefs.filter (fun p => p.1 = name)).head? with
  | none => ⟨0, 0, [], ["Sprite " ++ name ++ " not found"]⟩
  | some p =>
    let rp := resolvePalette r.paletteDefs p.2.palette
    let res := renderSprite p.2 rp.1
    ⟨res.width, res.height, res.pixels, res.warnings ++ rp.2⟩

/-- `render_to_png(name)`: PNG bytes for a known sprite, an empty buffer
for an unknown one. -/
def render_to_png (r : Registry) (name : String) : List Nat :=
  match (r.spriteDefs.filter (fun p => p.1 = name)).head? with
  | none => []
  | some _ =>
    let res := r.render name
    pngEncode res.pixels res.width res.height

/-- `render_all()`: every known sprite rendered to PNG bytes, keyed by
name. -/
def render_all (r : Registry) : List (String × List Nat) :=
  r.sprites.map (fun n => (n, r.render_to_png n))

end Registry

/-! ## Importer / analyzer (spec §4.5)

`Modelled from the spec:` the native importer is not in the Python tree.
Palette extraction tokenises distinct colors by descending frequency with
first-occurrence tie-break, reserving `_` for fully-transparent pixels;
an optional color bound merges the least-frequent color into its nearest
color until satisfied; region reconstruction finds maximal 4-connected
groups, encoded as rectangles when solid.  The deep-analysis scoring
heuristics are implementation latitude (spec §9) and are modelled by
simple deterministic choices with the fixed report shape. -/

/-- Group flat bytes into RGBA quadruples. -/
def chunk4 : List Nat → List RGBA
  | r :: g :: b :: a :: rest => ⟨r, g, b, a⟩ :: chunk4 rest
  | _ => []

/-- Structural equality of colors. -/
def rgbaEq (c d : RGBA) : Bool := c.r = d.r && c.g = d.g && c.b = d.b && c.a = d.a

/-- Count occurrences, keeping first-occurrence order. -/
def countColors (pix : List RGBA) : List (RGBA × Nat) :=
  pix.foldl (fun acc c =>
    if acc.any (fun p => rgbaEq p.1 c) then
      acc.map (fun p => if rgbaEq p.1 c then (p.1, p.2 + 1) else p)
    else acc ++ [(c, 1)]) []

/-- Insert after entries of greater-or-equal count: a stable descending
frequency sort, ties broken by first-occurrence order. -/
def insertFreq (e : RGBA × Nat) : List (RGBA × Nat) → List (RGBA × Nat)
  | [] => [e]
  | x :: xs => if e.2 ≤ x.2 then x :: insertFreq e xs else e :: x :: xs

/-- Stable descending sort by frequency. -/
def sortFreq (l : List (RGBA × Nat)) : List (RGBA × Nat) :=
  l.foldl (fun acc e => insertFreq e acc) []

/-- Squared channelwise distance (perceptual distance model). -/
def colorDist (c d : RGBA) : Nat :=
  (c.r - d.r) * (c.r - d.r) + (d.r - c.r) * (d.r - c.r) +
  (c.g - d.g) * (c.g - d.g) + (d.g - c.g) * (d.g - c.g) +
  (c.b - d.b) * (c.b - d.b) + (d.b - c.b) * (d.b - c.b) +
  (c.a - d.a) * (c.a - d.a) + (d.a - c.a) * (d.a - c.a)

/-- Whether a counted color is the reserved transparent one. -/
def isTransp (c : RGBA) : Bool := c.a = 0

/-- The nearest other color to `c` among `l`. -/
def nearestColor (c : RGBA) (l : List RGBA) : Option RGBA :=
  l.foldl (fun acc d =>
    match acc with
    | none => some d
    | some e => if colorDist c d < colorDist c e then some d else acc) none

/-- Merge the least-frequent non-transparent color into its nearest
non-transparent color, rewriting the pixels. -/
def mergeLeast (pix : List RGBA) : List RGBA :=
  let freqs := sortFreq (countColors pix)
  let solid := freqs.filter (fun p => !isTransp p.1)
  match solid.reverse with
  | [] => pix
  | victim :: _ =>
    match nearestColor victim.1 ((solid.map (fun p => p.1)).filter
      (fun d => !rgbaEq d victim.1)) with
    | none => pix
    | some target => pix.map (fun c => if rgbaEq c victim.1 then target else c)

/-- Iteratively merge until the distinct-color bound is satisfied. -/
def quantizeF : Nat → Nat → List RGBA → List RGBA
  | 0, _, pix => pix
  | f+1, maxC, pix =>
    if (countColors pix).length ≤ maxC then pix
    else quantizeF f maxC (mergeLeast pix)

/-- Token text for the `i`-th non-transparent color. -/
def tokenName (i : Nat) : String :=
  if i < 26 then String.mk [Char.ofNat (97 + i)] else "t" ++ natStr i

/-- Assign tokens to ordered colors: `_` for transparent, short stable
letters otherwise. -/
def assignTokens : List RGBA → Nat → List (String × RGBA)
  | [], _ => []
  | c :: cs, i =>
    if isTransp c then ("_", c) :: assignTokens cs i
    else (tokenName i, c) :: assignTokens cs (i + 1)

/-- 4-neighbourhood of a coordinate. -/
def neighbors4 (p : Int × Int) : List (Int × Int) :=
  [(p.1 + 1, p.2), (p.1 - 1, p.2), (p.1, p.2 + 1), (p.1, p.2 - 1)]

/-- Flood fill: grow a component from a frontier through the unvisited
set. -/
def floodF : Nat → List (Int × Int) → List (Int × Int) → List (Int × Int) →
    List (Int × Int) × List (Int × Int)
  | 0, _, un, acc => (acc, un)
  | _+1, [], un, acc => (acc, un)
  | f+1, p :: fr, un, acc =>
    let nbrs := (neighbors4 p).filter (fun q => un.contains q)
    floodF f (fr ++ nbrs) (un.filter (fun q => !(nbrs.contains q))) (acc ++ [p])

/-- Maximal 4-connected groups of a coordinate set, in scan order. -/
def compsF : Nat → List (Int × Int) → List (List (Int × Int))
  | 0, _ => []
  | _+1, [] => []
  | f+1, p :: un =>
    let r := floodF (un.length + 2) [p] un []
    r.1 :: compsF f r.2

/-- The connected components of a coordinate list. -/
def components (l : List (Int × Int)) : List (List (Int × Int)) := compsF (l.length + 1) l

/-- Fold a minimum over a list. -/
def minList (d : Int) (l : List Int) : Int := l.foldl min d

/-- Fold a maximum over a list. -/
def maxList (d : Int) (l : List Int) : Int := l.foldl max d

/-- Encode a component as a rectangle when it is a solid axis-aligned
block, else as its explicit point list. -/
def geomOfComp (comp : List (Int × Int)) : Geom :=
  match comp with
  | [] => .pts []
  | p :: rest =>
    let xs := (p :: rest).map (fun q => q.1)
    let ys := (p :: rest).map (fun q => q.2)
    let x0 := minList p.1 xs
    let x1 := maxList p.1 xs
    let y0 := minList p.2 ys
    let y1 := maxList p.2 ys
    let w := x1 - x0 + 1
    let h := y1 - y0 + 1
    let full := (List.range h.toNat).all (fun j => (List.range w.toNat).all
      (fun i => comp.contains (x0 + i, y0 + j)))
    if (comp.length : Int) = w * h ∧ full then .rect x0 y0 w h else .pts comp

structure AnalysisRec where
  roles : List (String × String)
  relationships : List (String × String)
  symmetry : List String
  naming_hints : List String
  z_order : List String
  dither_patterns : List String
  upscale_info : Option Nat
  outlines : Option String

structure ImportResult where
  name : String
  width : Nat
  height : Nat
  palette : List (String × String)
  regionGroups : List (String × Geom)
  analysis : Option AnalysisRec

/-- Scan-order coordinates whose pixel equals `c`. -/
def coordsOfColor (pix : List RGBA) (w : Nat) (c : RGBA) : List (Int × Int) :=
  (pix.enum.filter (fun p => rgbaEq p.2 c)).map
    (fun p => ((p.1 % w : Nat), (p.1 / w : Nat)))

/-- The fixed-shape analysis report (heuristics modelled per spec §9
latitude). -/
def analysisOf (toks : List (String × RGBA)) : AnalysisRec :=
  let named := toks.filter (fun t => t.1 ≠ "_")
  ⟨(match named with
    | [] => []
    | t :: rest => (t.1, "fill") :: rest.map (fun u => (u.1, "detail"))),
   [], [], [], named.map (fun t => t.1), [], none, none⟩

/-- Import decoded pixels: palette extraction, optional quantization,
region reconstruction, optional analysis (spec §4.5). -/
def importBytes (bytes : List Nat) (name : String) (maxColors : Option Nat)
    (analyzed : Bool) : Except PxlErr ImportResult :=
  match pngDecode bytes with
  | .error e => .error e
  | .ok (flat, w, h) =>
    let pix0 := (chunk4 flat).map (fun c => if c.a = 0 then ⟨0, 0, 0, 0⟩ else c)
    let pix :=
      match maxColors with
      | none => pix0
      | some m => quantizeF ((countColors pix0).length + 1) m pix0
    let ordered := (sortFreq (countColors pix)).map (fun p => p.1)
    let toks := assignTokens ordered 0
    let groups := (toks.filter (fun t => t.1 ≠ "_")).flatMap (fun t =>
      (components (coordsOfColor pix w t.2)).map (fun comp => (t.1, geomOfComp comp)))
    .ok ⟨name, w, h, toks.map (fun t => (t.1, colorStr t.2)),
      groups, if analyzed then some (analysisOf toks) else none⟩

/-- Last path component. -/
def lastComp (path : String) : List Char :=
  path.data.foldl (fun acc c => if c = '/' then [] else acc ++ [c]) []

/-- Base identifier of a path: last component, `.png` suffix removed. -/
def basename (path : String) : String :=
  let l := lastComp path
  if [' ', '.', 'p', 'n', 'g'].tail.isSuffixOf l then String.mk (l.take (l.length - 4))
  else String.mk l

/-- A readable file system fragment for byte reads. -/
def ByteFS : Type := String → Option (List Nat)

/-- `import_png(path, name, max_colors)`: decode and reconstruct; an
unreadable path is a filesystem-class error. -/
def import_png (fs : ByteFS) (path : String) (name : Option String)
    (maxColors : Option Nat) : Except PxlErr ImportResult :=
  match fs path with
  | none => .error (.osError ("Cannot read file: " ++ path))
  | some bytes =>
    importBytes bytes (match name with | some n => n | none => basename path) maxColors false

/-- The accepted `dither_handling` modes. -/
def ditherModes : List String := ["keep", "merge", "analyze"]

/-- `import_png_analyzed(path, name, max_colors, dither_handling)`: as
`import_png` with the analysis report; an unknown mode is a caller-input
error rejected before any analysis runs. -/
def import_png_analyzed (fs : ByteFS) (path : String) (name : Option String)
    (maxColors : Option Nat) (dither : String) : Except PxlErr ImportResult :=
  if ditherModes.contains dither then
    match fs path with
    | none => .error (.osError ("Cannot read file: " ++ path))
    | some bytes =>
      importBytes bytes (match name with | some n => n | none => basename path) maxColors true
  else .error (.valueError ("Unknown dither_handling: " ++ dither))

/-- JSON value of a geometry group. -/
def geomJson : Geom → JVal
  | .pts l => .obj (.cons "points"
      (.arr (jarrOf (l.map (fun p => .arr (.cons (.num p.1) (.cons (.num p.2) .nil))))))
      (.cons "z" (.num 0) .nil))
  | .rect x y w h => .obj (.cons "rect"
      (.arr (.cons (.num x) (.cons (.num y) (.cons (.num w) (.cons (.num h) .nil)))))
      (.cons "z" (.num 0) .nil))

/-- The palette object an import result serializes. -/
def palObjOf (r : ImportResult) : JObj :=
  .cons "type" (.str "palette") (.cons "name" (.str (r.name ++ "_palette"))
    (.cons "colors" (.obj (jobjOf (r.palette.map (fun p => (p.1, JVal.str p.2))))) .nil))

/-- The sprite object an import result serializes. -/
def sprObjOf (r : ImportResult) : JObj :=
  .cons "type" (.str "sprite") (.cons "name" (.str r.name)
    (.cons "size" (.arr (.cons (.num r.width) (.cons (.num r.height) .nil)))
      (.cons "palette" (.str (r.name ++ "_palette"))
        (.cons "regions" (.obj (jobjOf (r.regionGroups.map
          (fun g => (g.1, geomJson g.2))))) .nil))))

/-- `to_pxl()`: the multi-object textual form. -/
def ImportResult.to_pxl (r : ImportResult) : String :=
  String.mk (corpusChars true [palObjOf r, sprObjOf r])

/-- `to_jsonl()`: the one-object-per-line textual form. -/
def ImportResult.to_jsonl (r : ImportResult) : String :=
  String.mk (corpusChars false [palObjOf r, sprObjOf r])

/-! ## NumPy conversion (`pixelsrc/__init__.py`)

`_render_result_to_numpy` reinterprets the byte buffer as a
`(height, width, 4)` array of unsigned bytes and returns a fresh copy.
NumPy itself is an external collaborator; `frombuffer`, `reshape` and
`copy` are modelled by their documented value semantics. -/

/-- `np.frombuffer(b, dtype=np.uint8)`: the bytes as a flat array. -/
def npFrombuffer (b : List Nat) : List Nat := b

/-- `.copy()`: a fresh buffer with the same contents. -/
def npCopy (rows : List (List (List Nat))) : List (List (List Nat)) :=
  rows.map (fun r => r.map (fun c => c.map (fun x => x)))

/-- Split into consecutive chunks of `k`. -/
def chunkEveryF (k : Nat) : Nat → List Nat → List (List Nat)
  | 0, _ => []
  | _+1, [] => []
  | f+1, l => l.take k :: chunkEveryF k f (l.drop k)

/-- Split into consecutive chunks of `k`. -/
def chunkEvery (k : Nat) (l : List Nat) : List (List Nat) :=
  chunkEveryF k (l.length + 1) l

/-- `.reshape((height, width, 4))` of the flat buffer, failing as NumPy
does when the element count disagrees. -/
def npReshape3 (h w : Nat) (flat : List Nat) : Option (List (List (List Nat))) :=
  if flat.length = h * w * 4 then
    some (if w = 0 then List.replicate h [] else (chunkEvery (w * 4) flat).map (chunkEvery 4))
  else none

/-- `RenderResult.to_numpy()`. -/
def RenderResult.to_numpy (r : RenderResult) : Option (List (List (List Nat))) :=
  (npReshape3 r.height r.width (npFrombuffer r.pixels)).map npCopy

/-! ## Concrete corpora

The fixtures the test suite and the specification use. -/

/-- The spec's example sprite literal (§8). -/
def dotLit : String :=
  "\x7btype:\"sprite\", name:\"dot\", size:[1,1], palette:\x7b\"x\":\"#FF0000\"\x7d, regions:\x7b\"x\":\x7bpoints:[[0,0]], z:0\x7d\x7d\x7d"

/-- A corpus containing zero sprites (a single empty palette). -/
def palOnlyLit : String :=
  "\x7b\"type\": \"palette\", \"name\": \"empty\", \"colors\": \x7b\x7d\x7d"

/-- The `minimal_sprite` test fixture. -/
def minimalSpriteLit : String :=
  "\x7b type: \"sprite\", name: \"dot\", size: [1, 1], palette: \x7b \"_\": \"#00000000\", \"x\": \"#FF0000\" \x7d, regions: \x7b \"x\": \x7b points: [[0, 0]], z: 0 \x7d \x7d \x7d"

/-- An object with a name and no `type`. -/
def noTypeLit : String := "\x7b\"name\": \"test\"\x7d"

set_option maxRecDepth 20000

/-! ## C2 — the example sprite renders to a red pixel and PNG bytes -/

/-- C2: the sprite literal `\x7btype:"sprite", name:"dot", size:[1,1],
palette:\x7b"x":"#FF0000"\x7d, regions:\x7b"x":\x7bpoints:[[0,0]],
z:0\x7d\x7d\x7d` renders via `render_to_rgba` to a 1×1 RGBA buffer whose
four bytes are `[255, 0, 0, 255]`, and via `render_to_png` to a
non-empty byte string beginning with the fixed PNG signature. -/
theorem dot_example_renders_red_pixel :
    (render_to_rgba dotLit).width = 1 ∧ (render_to_rgba dotLit).height = 1 ∧
    (render_to_rgba dotLit).pixels = [255, 0, 0, 255] ∧
    render_to_png dotLit ≠ [] ∧ (render_to_png dotLit).take 8 = pngSig := by
  decide

/-! ## C3 — rendering with no resolvable sprite never fails -/

/-- C3: `render_to_png` over a corpus with zero sprites returns a
zero-length byte buffer, `render_to_rgba` the empty-but-valid result
carrying the "No sprites found" warning; `Registry.render` and
`Registry.render_to_png` on an unknown sprite name return an
empty-but-valid result with a warning rather than raising. -/
theorem no_sprite_render_is_empty_with_warning :
    (∀ text, firstSprite (parse text) = none →
      render_to_png text = [] ∧
      render_to_rgba text = ⟨0, 0, [], ["No sprites found"]⟩) ∧
    (∀ (r : Registry) (name : String),
      (r.spriteDefs.filter (fun p => p.1 = name)).head? = none →
      r.render name = ⟨0, 0, [], ["Sprite " ++ name ++ " not found"]⟩ ∧
      r.render_to_png name = []) := by
  constructor
  · intro text h
    constructor
    · simp only [render_to_png, h]
    · simp only [render_to_rgba, h]
  · intro r name h
    constructor
    · simp only [Registry.render, h]
    · simp only [Registry.render_to_png, h]

/-- C3 witness: the corpus of one empty palette has no sprites and
renders empty with the warning; the empty registry knows no sprite. -/
theorem no_sprite_render_is_empty_with_warning_witness :
    (firstSprite (parse palOnlyLit) = none ∧
      render_to_png palOnlyLit = [] ∧
      (render_to_rgba palOnlyLit).warnings = ["No sprites found"]) ∧
    ((Registry.empty.spriteDefs.filter (fun p => p.1 = "nonexistent")).head? = none ∧
      (Registry.empty.render "nonexistent").pixels = [] ∧
      Registry.empty.render_to_png "nonexistent" = []) := by
  have h1 : firstSprite (parse palOnlyLit) = none := rfl
  have h2 : (Registry.empty.spriteDefs.filter (fun p => p.1 = "nonexistent")).head? = none := rfl
  have m := no_sprite_render_is_empty_with_warning
  refine ⟨⟨h1, (m.1 palOnlyLit h1).1, ?_⟩, ⟨h2, ?_, (m.2 Registry.empty "nonexistent" h2).2⟩⟩
  · rw [(m.1 palOnlyLit h1).2]
  · rw [(m.2 Registry.empty "nonexistent" h2).1]

/-! ## C7 — missing `type` yields exactly one ERROR diagnostic -/

/-- A missing `type` field surfaces through `validateItems` no matter
what came before or after the object. -/
theorem missing_type_diag_mem (pals : List (String × List (String × String)))
    (items : List ParseItem) (seen : List (String × String)) (line : Nat) (fs : JObj)
    (hm : ParseItem.obj line fs ∈ items) (ht : fs.lookup "type" = none) :
    diagStr "ERROR" line "Missing required field: type" ∈ validateItems pals items seen := by
  induction items generalizing seen with
  | nil => cases hm
  | cons item rest ih =>
    rcases List.mem_cons.mp hm with heq | hmem
    · subst heq
      simp only [validateItems, itemDiags, ht, List.mem_append]
      exact Or.inl (List.mem_singleton.mpr rfl)
    · simp only [validateItems, List.mem_append]
      exact Or.inr (ih _ hmem)

/-- C7: `validate('\x7b"name":"test"\x7d')` returns exactly one
diagnostic, an ERROR mentioning the missing `type` field; in general any
top-level object lacking a `type` field contributes an ERROR diagnostic,
and fully valid input yields an empty list. -/
theorem validate_missing_type_field :
    (validate noTypeLit = ["ERROR: line 1: Missing required field: type"] ∧
      (validate noTypeLit).length = 1 ∧
      (∀ m ∈ validate noTypeLit, strContains m "ERROR" = true ∧ strContains m "type" = true)) ∧
    (∀ text line fs, ParseItem.obj line fs ∈ parse text → fs.lookup "type" = none →
      diagStr "ERROR" line "Missing required field: type" ∈ validate text) ∧
    validate minimalSpriteLit = [] := by
  refine ⟨⟨by decide, by decide, by decide⟩, ?_, by decide⟩
  intro text line fs hm ht
  exact missing_type_diag_mem _ _ _ _ _ hm ht

/-- C7 witness: the general clause applied at the concrete object with
no `type`. -/
theorem validate_missing_type_field_witness :
    ParseItem.obj 1 (.cons "name" (.str "test") .nil) ∈ parse noTypeLit ∧
    (JObj.cons "name" (.str "test") .nil).lookup "type" = none ∧
    diagStr "ERROR" 1 "Missing required field: type" ∈ validate noTypeLit := by
  have h1 : ParseItem.obj 1 (.cons "name" (.str "test") .nil) ∈ parse noTypeLit := by
    have : parse noTypeLit = [ParseItem.obj 1 (.cons "name" (.str "test") .nil)] := rfl
    rw [this]
    exact List.mem_singleton.mpr rfl
  have h2 : (JObj.cons "name" (.str "test") .nil).lookup "type" = none := rfl
  exact ⟨h1, h2, validate_missing_type_field.2.1 noTypeLit 1 _ h1 h2⟩

/-! ## C6 — ramp generation -/

/-- The first ramp sample is the `from` endpoint. -/
theorem rampChan_zero (x y n : Nat) : rampChan x y 0 n = x := by
  simp [rampChan]

/-- The last of `n ≥ 2` ramp samples is the `to` endpoint. -/
theorem rampChan_last (x y n : Nat) (hn : 2 ≤ n) : rampChan x y (n - 1) n = y := by
  have h0 : n - 1 ≠ 0 := by omega
  simp [rampChan, h0]

/-- Interpolating a channel against itself is constant. -/
theorem rampChan_self (x i n : Nat) (hi : i < n) : rampChan x x i n = x := by
  unfold rampChan
  by_cases h0 : i = 0
  · simp [h0]
  · by_cases h1 : i = n - 1
    · simp [h0, h1]
    · simp only [h0, h1, if_false]
      have hn1 : 0 < n - 1 := by omega
      have e1 : x * (n - 1 - i) + x * i = x * (n - 1) := by
        have : (n - 1 - i) + i = n - 1 := by omega
        calc x * (n - 1 - i) + x * i = x * ((n - 1 - i) + i) := by ring
          _ = x * (n - 1) := by rw [this]
      rw [e1]
      have e2 : 2 * (x * (n - 1)) + (n - 1) = (n - 1) * (2 * x + 1) := by ring
      have e3 : 2 * (n - 1) = (n - 1) * 2 := by ring
      rw [e2, e3, Nat.mul_div_mul_left _ _ hn1]
      omega

/-- Interpolating a color against itself is constant. -/
theorem rampColor_self (c : RGBA) (i n : Nat) (hi : i < n) : rampColor c c i n = c := by
  simp [rampColor, rampChan_self _ _ _ hi]

/-- C6: for valid color literals, `generate_ramp` rejects `steps < 1`
as a caller-input error, returns exactly the normalized `from` at one
step, at `n ≥ 2` returns `n` linear per-channel samples (alpha
included) whose first is the normalized `from` and last the normalized
`to`, and over equal endpoints returns `n` copies of the normalized
color. -/
theorem generate_ramp_spec (a b : String) (ca cb : RGBA)
    (ha : parseColorVal a = some ca) (hb : parseColorVal b = some cb) :
    generate_ramp a b 0 = .error (.valueError "steps must be at least 1") ∧
    generate_ramp a b 1 = .ok [colorStr ca] ∧
    (∀ n, 2 ≤ n → ∃ l, generate_ramp a b n = .ok l ∧
      l = (List.range n).map (fun i => colorStr (rampColor ca cb i n)) ∧
      l.length = n ∧ l.head? = some (colorStr ca) ∧ l.getLast? = some (colorStr cb)) ∧
    (∀ n, 0 < n → generate_ramp a a n = .ok (List.replicate n (colorStr ca))) := by
  refine ⟨by simp [generate_ramp, ha, hb], ?_, ?_, ?_⟩
  · have h1 : List.range 1 = [0] := rfl
    simp [generate_ramp, ha, hb, h1, rampColor, rampChan_zero]
  · intro n hn
    refine ⟨_, by simp [generate_ramp, ha, hb]; omega, rfl, by simp, ?_, ?_⟩
    · obtain ⟨m, rfl⟩ : ∃ m, n = m + 1 := ⟨n - 1, by omega⟩
      rw [List.range_succ_eq_map]
      simp [rampColor, rampChan_zero]
    · obtain ⟨m, rfl⟩ : ∃ m, n = m + 1 := ⟨n - 1, by omega⟩
      rw [List.range_succ, List.map_append]
      simp only [List.map_cons, List.map_nil]
      rw [List.getLast?_concat]
      have : rampColor ca cb m (m + 1) = cb := by
        have hr := rampChan_last ca.r cb.r (m + 1) hn
        have hg := rampChan_last ca.g cb.g (m + 1) hn
        have hbb := rampChan_last ca.b cb.b (m + 1) hn
        have haa := rampChan_last ca.a cb.a (m + 1) hn
        simp only [Nat.add_sub_cancel] at hr hg hbb haa
        simp [rampColor, hr, hg, hbb, haa]
      rw [this]
  · intro n hn
    have h0 : n ≠ 0 := by omega
    simp only [generate_ramp, ha, h0, if_false]
    congr 1
    refine List.eq_replicate_iff.mpr ⟨by simp, ?_⟩
    intro x hx
    obtain ⟨i, hi, rfl⟩ := List.mem_map.mp hx
    rw [rampColor_self _ _ _ (List.mem_range.mp hi)]

/-- C6 witness: the ramp spec applied at `#000000` and `#ffffff`. -/
theorem generate_ramp_spec_witness :
    parseColorVal "#000000" = some ⟨0, 0, 0, 255⟩ ∧
    parseColorVal "#ffffff" = some ⟨255, 255, 255, 255⟩ ∧
    generate_ramp "#000000" "#ffffff" 0 = .error (.valueError "steps must be at least 1") ∧
    generate_ramp "#000000" "#ffffff" 1 = .ok ["#000000"] ∧
    (∃ l, generate_ramp "#000000" "#ffffff" 3 = .ok l ∧
      l = (List.range 3).map
        (fun i => colorStr (rampColor ⟨0, 0, 0, 255⟩ ⟨255, 255, 255, 255⟩ i 3)) ∧
      l.length = 3 ∧ l.head? = some (colorStr ⟨0, 0, 0, 255⟩) ∧
      l.getLast? = some (colorStr ⟨255, 255, 255, 255⟩)) ∧
    generate_ramp "#000000" "#000000" 4 = .ok (List.replicate 4 "#000000") := by
  have ha : parseColorVal "#000000" = some ⟨0, 0, 0, 255⟩ := rfl
  have hb : parseColorVal "#ffffff" = some ⟨255, 255, 255, 255⟩ := rfl
  have m := generate_ramp_spec "#000000" "#ffffff" _ _ ha hb
  have m2 := generate_ramp_spec "#000000" "#000000" _ _ ha ha
  exact ⟨ha, hb, m.1, rfl, m.2.2.1 3 (by omega), m2.2.2.2 4 (by omega)⟩

/-! ## C9 — filesystem errors are a distinct class -/

/-- C9: every path-reading operation fails with the filesystem error
class when the path cannot be read; malformed data fails with the
caller-input class; the two classes are distinguishable. -/
theorem unreadable_path_is_os_error :
    (∀ (tfs : TextFS) (path : String), tfs path = none →
      validate_file tfs path = .error (.osError ("Cannot read file: " ++ path)) ∧
      ∀ r : Registry,
        Registry.load_file tfs r path = .error (.osError ("Cannot read file: " ++ path))) ∧
    (∀ (bfs : ByteFS) (path : String) (nm : Option String) (mc : Option Nat),
      bfs path = none →
      import_png bfs path nm mc = .error (.osError ("Cannot read file: " ++ path)) ∧
      ∀ d, ditherModes.contains d = true →
        import_png_analyzed bfs path nm mc d =
          .error (.osError ("Cannot read file: " ++ path))) ∧
    (∀ m1 m2, PxlErr.osError m1 ≠ PxlErr.valueError m2) ∧
    (∃ m, pngDecode [0, 1, 2] = .error (.valueError m)) ∧
    (∃ m, importBytes [0, 1, 2] "x" none false = .error (.valueError m)) := by
  refine ⟨?_, ?_, ?_, ⟨"not a PNG", rfl⟩, ⟨"not a PNG", rfl⟩⟩
  · intro tfs path h
    exact ⟨by simp [validate_file, h], fun r => by simp [Registry.load_file, h]⟩
  · intro bfs path nm mc h
    refine ⟨by simp [import_png, h], fun d hd => ?_⟩
    simp only [import_png_analyzed, hd, if_true, h]
  · intro m1 m2 h
    exact PxlErr.noConfusion h

/-- C9 witness: a file system with no entries refuses every path. -/
theorem unreadable_path_is_os_error_witness :
    ((fun _ => none : TextFS) "/nonexistent/path.pxl" = none ∧
      validate_file (fun _ => none) "/nonexistent/path.pxl" =
        .error (.osError "Cannot read file: /nonexistent/path.pxl")) ∧
    ((fun _ => none : ByteFS) "/nonexistent/sprite.png" = none ∧
      import_png (fun _ => none) "/nonexistent/sprite.png" none none =
        .error (.osError "Cannot read file: /nonexistent/sprite.png") ∧
      import_png_analyzed (fun _ => none) "/nonexistent/sprite.png" none none "keep" =
        .error (.osError "Cannot read file: /nonexistent/sprite.png")) := by
  have m := unreadable_path_is_os_error
  have h1 : (fun _ => none : TextFS) "/nonexistent/path.pxl" = none := rfl
  have h2 : (fun _ => none : ByteFS) "/nonexistent/sprite.png" = none := rfl
  refine ⟨⟨h1, ?_⟩, ⟨h2, ?_, ?_⟩⟩
  · have e := (m.1 (fun _ => none) "/nonexistent/path.pxl" h1).1
    rw [e]
    rfl
  · have e := (m.2.1 (fun _ => none) "/nonexistent/sprite.png" none none h2).1
    rw [e]
    rfl
  · have e := (m.2.1 (fun _ => none) "/nonexistent/sprite.png" none none h2).2 "keep" rfl
    rw [e]
    rfl

/-! ## C10 — `to_numpy` shape, dtype and content -/

/-- Chunking then flattening gives back the list. -/
theorem chunkEveryF_flatten (k : Nat) (hk : 0 < k) :
    ∀ f l, l.length < f → (chunkEveryF k f l).flatten = l := by
  intro f
  induction f with
  | zero => intro l h; omega
  | succ f ih =>
    intro l h
    match l with
    | [] => rfl
    | a :: l2 =>
      have hlt : ((a :: l2).drop k).length < f := by
        rw [List.length_drop]
        simp only [List.length_cons] at h ⊢
        omega
      show ((a :: l2).take k :: chunkEveryF k f ((a :: l2).drop k)).flatten = a :: l2
      rw [List.flatten_cons, ih _ hlt, List.take_append_drop]

/-- An exactly-divisible list chunks into `m` pieces. -/
theorem chunkEveryF_length (k : Nat) (hk : 0 < k) :
    ∀ f m l, l.length = m * k → l.length < f → (chunkEveryF k f l).length = m := by
  intro f
  induction f with
  | zero => intro m l h hf; omega
  | succ f ih =>
    intro m l h hf
    match l with
    | [] =>
      have hm : m = 0 := by
        rcases Nat.mul_eq_zero.mp h.symm with h1 | h1
        · exact h1
        · omega
      simp [hm, chunkEveryF]
    | a :: l2 =>
      have hm : 0 < m := by
        rcases m with _ | m
        · simp at h
        · omega
      have hd : ((a :: l2).drop k).length = (m - 1) * k := by
        rw [List.length_drop, h]
        have hm1 : m = (m - 1) + 1 := by omega
        have : m * k = (m - 1) * k + k := by
          conv_lhs => rw [hm1]
          rw [Nat.succ_mul]
        omega
      have hlt : ((a :: l2).drop k).length < f := by
        rw [List.length_drop]
        simp only [List.length_cons] at hf ⊢
        omega
      show (((a :: l2).take k :: chunkEveryF k f ((a :: l2).drop k))).length = m
      rw [List.length_cons, ih (m - 1) _ hd hlt]
      omega

/-- Each chunk of an exactly-divisible list has length `k`. -/
theorem chunkEveryF_mem_length (k : Nat) (hk : 0 < k) :
    ∀ f m l c, l.length = m * k → l.length < f → c ∈ chunkEveryF k f l → c.length = k := by
  intro f
  induction f with
  | zero => intro m l c h hf hm; omega
  | succ f ih =>
    intro m l c h hf hm
    match l with
    | [] => cases hm
    | a :: l2 =>
      have hm1 : 0 < m := by
        rcases m with _ | m
        · simp at h
        · omega
      have hkle : k ≤ (a :: l2).length := by
        rw [h]
        calc k = 1 * k := (Nat.one_mul k).symm
          _ ≤ m * k := Nat.mul_le_mul_right k hm1
      have hsplit : chunkEveryF k (f + 1) (a :: l2) =
          (a :: l2).take k :: chunkEveryF k f ((a :: l2).drop k) := rfl
      rw [hsplit] at hm
      rcases List.mem_cons.mp hm with heq | hmem
      · rw [heq, List.length_take]
        omega
      · have hd : ((a :: l2).drop k).length = (m - 1) * k := by
          rw [List.length_drop, h]
          have hm2 : m = (m - 1) + 1 := by omega
          have : m * k = (m - 1) * k + k := by
            conv_lhs => rw [hm2]
            rw [Nat.succ_mul]
          omega
        have hlt : ((a :: l2).drop k).length < f := by
          rw [List.length_drop]
          simp only [List.length_cons] at hf ⊢
          omega
        exact ih (m - 1) _ _ hd hlt hmem

/-- Copying changes nothing about the value. -/
theorem npCopy_id (a : List (List (List Nat))) : npCopy a = a := by
  simp [npCopy]

/-- Flattening the per-row chunking of rows flattens the rows. -/
theorem flatten_map_chunk (rows : List (List Nat))
    (h : ∀ row ∈ rows, (chunkEvery 4 row).flatten = row) :
    ((rows.map (chunkEvery 4)).flatten).flatten = rows.flatten := by
  induction rows with
  | nil => rfl
  | cons r rest ih =>
    simp only [List.map_cons, List.flatten_cons, List.flatten_append]
    rw [h r (List.mem_cons_self r rest), ih (fun row hr => h row (List.mem_cons_of_mem _ hr))]

/-- C10: for a `RenderResult` whose buffer has `width · height · 4`
bytes, `to_numpy` returns a `(height, width, 4)`-shaped array of
byte-sized entries whose row-major flattening is exactly the pixel
buffer (the returned value is a copy, built without altering the
result). -/
theorem to_numpy_spec (r : RenderResult)
    (hlen : r.pixels.length = r.width * r.height * 4)
    (hbytes : ∀ b ∈ r.pixels, b < 256) :
    ∃ a, r.to_numpy = some a ∧ a.length = r.height ∧
      (∀ row ∈ a, row.length = r.width ∧
        ∀ cell ∈ row, cell.length = 4 ∧ ∀ x ∈ cell, x < 256) ∧
      a.flatten.flatten = r.pixels := by
  have hlen2 : r.pixels.length = r.height * r.width * 4 := by rw [hlen]; ring
  by_cases hw : r.width = 0
  · have hlz : r.pixels.length = 0 := by rw [hlen, hw]; ring
    have hnil : r.pixels = [] := List.eq_nil_of_length_eq_zero hlz
    refine ⟨List.replicate r.height [], ?_, by simp, ?_, ?_⟩
    · simp [RenderResult.to_numpy, npReshape3, npFrombuffer, hlen2, hw, npCopy_id]
    · intro row hrow
      rw [List.eq_of_mem_replicate hrow]
      exact ⟨by simp [hw], by simp⟩
    · rw [hnil]
      simp
  · have hw4 : 0 < r.width * 4 := by omega
    have hlen3 : r.pixels.length = r.height * (r.width * 4) := by rw [hlen]; ring
    have hjoin : (chunkEvery (r.width * 4) r.pixels).flatten = r.pixels :=
      chunkEveryF_flatten _ hw4 _ _ (Nat.lt_succ_self _)
    have hrlen : ∀ row ∈ chunkEvery (r.width * 4) r.pixels, row.length = r.width * 4 := by
      intro row hr
      exact chunkEveryF_mem_length _ hw4 _ r.height _ _ hlen3 (Nat.lt_succ_self _) hr
    have hrowjoin : ∀ row ∈ chunkEvery (r.width * 4) r.pixels,
        (chunkEvery 4 row).flatten = row := by
      intro row _
      exact chunkEveryF_flatten _ (by omega) _ _ (Nat.lt_succ_self _)
    refine ⟨(chunkEvery (r.width * 4) r.pixels).map (chunkEvery 4), ?_, ?_, ?_, ?_⟩
    · simp only [RenderResult.to_numpy, npReshape3, npFrombuffer, hlen2, if_pos, hw,
        if_false, Option.map_some]
      simp [npCopy_id]
    · rw [List.length_map]
      exact chunkEveryF_length _ hw4 _ r.height _ hlen3 (Nat.lt_succ_self _)
    · intro row hrow
      obtain ⟨row0, hr0, rfl⟩ := List.mem_map.mp hrow
      have hl0 : row0.length = r.width * 4 := hrlen row0 hr0
      constructor
      · exact chunkEveryF_length 4 (by omega) (row0.length + 1) r.width row0 hl0
          (Nat.lt_succ_self _)
      · intro cell hcell
        constructor
        · exact chunkEveryF_mem_length 4 (by omega) _ r.width _ _ hl0
            (Nat.lt_succ_self _) hcell
        · intro x hx
          apply hbytes
          rw [← hjoin]
          refine List.mem_flatten.mpr ⟨row0, hr0, ?_⟩
          rw [← hrowjoin row0 hr0]
          exact List.mem_flatten.mpr ⟨cell, hcell, hx⟩
    · rw [flatten_map_chunk _ hrowjoin, hjoin]

/-- C10 witness: the red-pixel render result converts to the
`(1, 1, 4)` array holding its bytes. -/
theorem to_numpy_spec_witness :
    (RenderResult.mk 1 1 [255, 0, 0, 255] []).pixels.length = 1 * 1 * 4 ∧
    ∃ a, (RenderResult.mk 1 1 [255, 0, 0, 255] []).to_numpy = some a ∧
      a.length = 1 ∧ a.flatten.flatten = [255, 0, 0, 255] := by
  have h := to_numpy_spec (RenderResult.mk 1 1 [255, 0, 0, 255] []) (by decide) (by decide)
  obtain ⟨a, h1, h2, _, h4⟩ := h
  exact ⟨by decide, a, h1, h2, h4⟩

/-! ## C8 — registry accumulation and sorted name listing -/

/-- The sprite record an item contributes to a load. -/
def itemSpriteRec : ParseItem → Option SpriteRec
  | .obj _ fs => if typeOf fs = "sprite" then spriteOfObj fs else none
  | .warn _ _ => none

/-- The palette definition an item contributes to a load. -/
def itemPaletteDef : ParseItem → Option (String × List (String × String))
  | .obj _ fs =>
    if typeOf fs = "palette" then
      match fs.lookup "name", fs.lookup "colors" with
      | some (.str n), some (.obj cols) => some (n, colorMapOf cols)
      | _, _ => none
    else none
  | .warn _ _ => none

/-- Sprite names a text contributes when loaded. -/
def spriteNamesIn (text : String) : List String :=
  (parse text).filterMap (fun i => (itemSpriteRec i).map SpriteRec.name)

/-- Palette names a text contributes when loaded. -/
def paletteNamesIn (text : String) : List String :=
  (parse text).filterMap (fun i => (itemPaletteDef i).map Prod.fst)

/-- The registry after a sequence of loads. -/
def loadAll (texts : List String) : Registry := texts.foldl Registry.load Registry.empty

/-- `loadItem` touches the sprite table exactly as the contributed
record dictates. -/
theorem loadItem_spriteDefs (r : Registry) (i : ParseItem) :
    (Registry.loadItem r i).spriteDefs =
      match itemSpriteRec i with
      | some s => upsert s.name s r.spriteDefs
      | none => r.spriteDefs := by
  cases i with
  | warn l m => rfl
  | obj l fs =>
    simp only [Registry.loadItem, itemSpriteRec]
    by_cases hp : typeOf fs = "palette"
    · have hs : ¬(typeOf fs = "sprite") := by rw [hp]; decide
      rw [if_pos hp, if_neg hs]
      split <;> rfl
    · rw [if_neg hp]
      by_cases hs : typeOf fs = "sprite"
      · rw [if_pos hs, if_pos hs]
        split <;> rfl
      · rw [if_neg hs, if_neg hs]

/-- `loadItem` touches the palette table exactly as the contributed
definition dictates. -/
theorem loadItem_paletteDefs (r : Registry) (i : ParseItem) :
    (Registry.loadItem r i).paletteDefs =
      match itemPaletteDef i with
      | some p => upsert p.1 p.2 r.paletteDefs
      | none => r.paletteDefs := by
  cases i with
  | warn l m => rfl
  | obj l fs =>
    simp only [Registry.loadItem, itemPaletteDef]
    by_cases hp : typeOf fs = "palette"
    · rw [if_pos hp, if_pos hp]
      split <;> rfl
    · rw [if_neg hp, if_neg hp]
      by_cases hs : typeOf fs = "sprite"
      · rw [if_pos hs]
        split <;> rfl
      · rw [if_neg hs]

/-- Keys after an upsert: the new key joins the old ones. -/
theorem mem_upsert_keys {α : Type} (k : String) (v : α) (l : List (String × α)) (n : String) :
    n ∈ (upsert k v l).map Prod.fst ↔ n = k ∨ n ∈ l.map Prod.fst := by
  induction l with
  | nil => simp [upsert]
  | cons p rest ih =>
    obtain ⟨k2, v2⟩ := p
    by_cases h : k2 = k
    · subst h
      rw [show upsert k2 v ((k2, v2) :: rest) = (k2, v) :: rest from by simp [upsert]]
      simp only [List.map_cons, List.mem_cons]
      constructor
      · rintro (rfl | h2)
        · exact Or.inl rfl
        · exact Or.inr (Or.inr h2)
      · rintro (rfl | rfl | h2)
        · exact Or.inl rfl
        · exact Or.inl rfl
        · exact Or.inr h2
    · rw [show upsert k v ((k2, v2) :: rest) = (k2, v2) :: upsert k v rest from by
        simp [upsert, h]]
      simp only [List.map_cons, List.mem_cons, ih]
      tauto

/-- Sprite keys across a fold of items. -/
theorem foldl_loadItem_sprite_keys (items : List ParseItem) :
    ∀ (r : Registry) (n : String),
      n ∈ (items.foldl Registry.loadItem r).spriteDefs.map Prod.fst ↔
        n ∈ items.filterMap (fun i => (itemSpriteRec i).map SpriteRec.name) ∨
          n ∈ r.spriteDefs.map Prod.fst := by
  induction items with
  | nil => simp
  | cons i rest ih =>
    intro r n
    rw [List.foldl_cons, ih]
    cases hi : itemSpriteRec i with
    | none =>
      have : (Registry.loadItem r i).spriteDefs = r.spriteDefs := by
        rw [loadItem_spriteDefs, hi]
      rw [this]
      simp [List.filterMap_cons, hi]
    | some s =>
      have : (Registry.loadItem r i).spriteDefs = upsert s.name s r.spriteDefs := by
        rw [loadItem_spriteDefs, hi]
      rw [this]
      simp only [List.filterMap_cons, hi, mem_upsert_keys]
      simp only [Option.map, List.mem_cons]
      tauto

/-- Palette keys across a fold of items. -/
theorem foldl_loadItem_palette_keys (items : List ParseItem) :
    ∀ (r : Registry) (n : String),
      n ∈ (items.foldl Registry.loadItem r).paletteDefs.map Prod.fst ↔
        n ∈ items.filterMap (fun i => (itemPaletteDef i).map Prod.fst) ∨
          n ∈ r.paletteDefs.map Prod.fst := by
  induction items with
  | nil => simp
  | cons i rest ih =>
    intro r n
    rw [List.foldl_cons, ih]
    cases hi : itemPaletteDef i with
    | none =>
      have : (Registry.loadItem r i).paletteDefs = r.paletteDefs := by
        rw [loadItem_paletteDefs, hi]
      rw [this]
      simp [List.filterMap_cons, hi]
    | some p =>
      have : (Registry.loadItem r i).paletteDefs = upsert p.1 p.2 r.paletteDefs := by
        rw [loadItem_paletteDefs, hi]
      rw [this]
      simp only [List.filterMap_cons, hi, mem_upsert_keys]
      simp only [Option.map, List.mem_cons]
      tauto

/-- Sprite keys after a sequence of loads are the contributed names. -/
theorem loadAll_sprite_keys (texts : List String) (n : String) :
    n ∈ (loadAll texts).spriteDefs.map Prod.fst ↔ n ∈ texts.flatMap spriteNamesIn := by
  suffices h : ∀ (r : Registry),
      n ∈ (texts.foldl Registry.load r).spriteDefs.map Prod.fst ↔
        n ∈ texts.flatMap spriteNamesIn ∨ n ∈ r.spriteDefs.map Prod.fst by
    have := h Registry.empty
    simpa [loadAll, Registry.empty] using this
  induction texts with
  | nil => simp
  | cons t rest ih =>
    intro r
    rw [List.foldl_cons, ih, Registry.load, foldl_loadItem_sprite_keys]
    simp only [List.flatMap_cons, List.mem_append, spriteNamesIn]
    tauto

/-- Palette keys after a sequence of loads are the contributed names. -/
theorem loadAll_palette_keys (texts : List String) (n : String) :
    n ∈ (loadAll texts).paletteDefs.map Prod.fst ↔ n ∈ texts.flatMap paletteNamesIn := by
  suffices h : ∀ (r : Registry),
      n ∈ (texts.foldl Registry.load r).paletteDefs.map Prod.fst ↔
        n ∈ texts.flatMap paletteNamesIn ∨ n ∈ r.paletteDefs.map Prod.fst by
    have := h Registry.empty
    simpa [loadAll, Registry.empty] using this
  induction texts with
  | nil => simp
  | cons t rest ih =>
    intro r
    rw [List.foldl_cons, ih, Registry.load, foldl_loadItem_palette_keys]
    simp only [List.flatMap_cons, List.mem_append, paletteNamesIn]
    tauto

/-- Code-point order is total. -/
theorem charsLe_total : ∀ a b : List Char, charsLe a b = true ∨ charsLe b a = true := by
  intro a
  induction a with
  | nil => intro b; left; rfl
  | cons c cs ih =>
    intro b
    cases b with
    | nil => right; rfl
    | cons d ds =>
      simp only [charsLe]
      by_cases h1 : c.toNat < d.toNat
      · left
        simp [h1]
      · by_cases h2 : d.toNat < c.toNat
        · right
          simp [h2]
        · simp only [h1, h2, if_false]
          exact ih ds

/-- Code-point order is transitive. -/
theorem charsLe_trans : ∀ a b c : List Char,
    charsLe a b = true → charsLe b c = true → charsLe a c = true := by
  intro a
  induction a with
  | nil => intro b c _ _; rfl
  | cons x xs ih =>
    intro b c hab hbc
    cases b with
    | nil => simp [charsLe] at hab
    | cons y ys =>
      cases c with
      | nil => simp [charsLe] at hbc
      | cons z zs =>
        simp only [charsLe] at hab hbc ⊢
        by_cases h1 : x.toNat < y.toNat
        · by_cases h2 : y.toNat < z.toNat
          · simp [show x.toNat < z.toNat by omega]
          · by_cases h3 : z.toNat < y.toNat
            · simp [h2, h3] at hbc
            · simp only [h2, h3, if_false] at hbc
              simp [show x.toNat < z.toNat by omega]
        · by_cases h4 : y.toNat < x.toNat
          · simp [h1, h4] at hab
          · simp only [h1, h4, if_false] at hab
            by_cases h2 : y.toNat < z.toNat
            · simp [show x.toNat < z.toNat by omega]
            · by_cases h3 : z.toNat < y.toNat
              · simp [h2, h3] at hbc
              · simp only [h2, h3, if_false] at hbc
                have hxz1 : ¬(x.toNat < z.toNat) := by omega
                have hxz2 : ¬(z.toNat < x.toNat) := by omega
                simp only [hxz1, hxz2, if_false]
                exact ih ys zs hab hbc

/-- String order totality. -/
theorem strLe_total (a b : String) : strLe a b = true ∨ strLe b a = true :=
  charsLe_total a.data b.data

/-- String order transitivity. -/
theorem strLe_trans {a b c : String} (h1 : strLe a b = true) (h2 : strLe b c = true) :
    strLe a c = true :=
  charsLe_trans a.data b.data c.data h1 h2

/-- Membership through insertion. -/
theorem mem_insortStr (x n : String) (l : List String) :
    n ∈ insortStr x l ↔ n = x ∨ n ∈ l := by
  induction l with
  | nil => simp [insortStr]
  | cons y ys ih =>
    by_cases h : strLe x y
    · simp [insortStr, h]
    · simp only [insortStr, h, Bool.false_eq_true, if_false, List.mem_cons, ih]
      tauto

/-- Membership through sorting. -/
theorem mem_sortStr (n : String) (l : List String) : n ∈ sortStr l ↔ n ∈ l := by
  induction l with
  | nil => simp [sortStr]
  | cons x xs ih => simp [sortStr, mem_insortStr, ih]

/-- Insertion preserves sortedness. -/
theorem pairwise_insortStr (x : String) (l : List String)
    (hs : l.Pairwise (fun a b => strLe a b = true)) :
    (insortStr x l).Pairwise (fun a b => strLe a b = true) := by
  induction l with
  | nil => simp [insortStr]
  | cons y ys ih =>
    rcases List.pairwise_cons.mp hs with ⟨hy, hys⟩
    by_cases h : strLe x y
    · rw [show insortStr x (y :: ys) = x :: y :: ys from by simp [insortStr, h]]
      refine List.pairwise_cons.mpr ⟨?_, hs⟩
      intro z hz
      rcases List.mem_cons.mp hz with rfl | hz2
      · exact h
      · exact strLe_trans h (hy z hz2)
    · have hyx : strLe y x = true := by
        rcases strLe_total x y with h1 | h1
        · exact absurd h1 h
        · exact h1
      rw [show insortStr x (y :: ys) = y :: insortStr x ys from by simp [insortStr, h]]
      refine List.pairwise_cons.mpr ⟨?_, ih hys⟩
      intro z hz
      rcases (mem_insortStr x z ys).mp hz with rfl | hz2
      · exact hyx
      · exact hy z hz2

/-- `sortStr` sorts. -/
theorem pairwise_sortStr (l : List String) :
    (sortStr l).Pairwise (fun a b => strLe a b = true) := by
  induction l with
  | nil => simp [sortStr]
  | cons x xs ih => exact pairwise_insortStr x _ ih

/-- C8: after any sequence of loads, `sprites()` and `palettes()` list
exactly the names accumulated across all loads, in lexical sort order,
and a name present after earlier loads remains present after later
ones — loads merge, never replace. -/
theorem registry_accumulates_and_sorts :
    (∀ texts : List String,
      ((loadAll texts).sprites.Pairwise (fun a b => strLe a b = true) ∧
        ∀ n, n ∈ (loadAll texts).sprites ↔ n ∈ texts.flatMap spriteNamesIn) ∧
      ((loadAll texts).palettes.Pairwise (fun a b => strLe a b = true) ∧
        ∀ n, n ∈ (loadAll texts).palettes ↔ n ∈ texts.flatMap paletteNamesIn)) ∧
    (∀ (ts us : List String) (n : String),
      (n ∈ (loadAll ts).sprites → n ∈ (loadAll (ts ++ us)).sprites) ∧
      (n ∈ (loadAll ts).palettes → n ∈ (loadAll (ts ++ us)).palettes)) := by
  have hs : ∀ texts n, n ∈ (loadAll texts).sprites ↔ n ∈ texts.flatMap spriteNamesIn := by
    intro texts n
    rw [Registry.sprites, mem_sortStr, loadAll_sprite_keys]
  have hp : ∀ texts n, n ∈ (loadAll texts).palettes ↔ n ∈ texts.flatMap paletteNamesIn := by
    intro texts n
    rw [Registry.palettes, mem_sortStr, loadAll_palette_keys]
  refine ⟨fun texts => ⟨⟨pairwise_sortStr _, hs texts⟩, ⟨pairwise_sortStr _, hp texts⟩⟩, ?_⟩
  intro ts us n
  constructor
  · intro h
    rw [hs] at h ⊢
    rw [List.flatMap_append]
    exact List.mem_append_left _ h
  · intro h
    rw [hp] at h ⊢
    rw [List.flatMap_append]
    exact List.mem_append_left _ h

/-- C8 witness: loading a palette then a sprite accumulates both, in
sorted order, and monotonically. -/
theorem registry_accumulates_and_sorts_witness :
    ((loadAll [palOnlyLit]).palettes = ["empty"] ∧
      (loadAll [palOnlyLit, minimalSpriteLit]).palettes = ["empty"] ∧
      (loadAll [palOnlyLit, minimalSpriteLit]).sprites = ["dot"]) ∧
    ("empty" ∈ (loadAll [palOnlyLit]).palettes →
      "empty" ∈ (loadAll ([palOnlyLit] ++ [minimalSpriteLit])).palettes) ∧
    "empty" ∈ (loadAll ([palOnlyLit] ++ [minimalSpriteLit])).palettes := by
  have h1 : (loadAll [palOnlyLit]).palettes = ["empty"] := by decide
  have hmem : "empty" ∈ (loadAll [palOnlyLit]).palettes := by
    rw [h1]
    exact List.mem_singleton.mpr rfl
  have hmono := (registry_accumulates_and_sorts.2 [palOnlyLit] [minimalSpriteLit] "empty").2
  exact ⟨⟨h1, by decide, by decide⟩, hmono, hmono hmem⟩

/-! ## Round-trip machinery: decimal digits -/

/-- Digit characters are digits. -/
theorem digitChar_isDigit (d : Nat) (h : d < 10) : (digitChar d).isDigit = true := by
  interval_cases d <;> decide

/-- Digit characters code their value. -/
theorem digitChar_toNat (d : Nat) (h : d < 10) : (digitChar d).toNat = 48 + d := by
  interval_cases d <;> decide

/-- Every character `natCharsF` produces is a digit. -/
theorem natCharsF_digits : ∀ f n c, c ∈ natCharsF f n → c.isDigit = true := by
  intro f
  induction f with
  | zero => intro n c h; cases h
  | succ f ih =>
    intro n c h
    by_cases h10 : n < 10
    · simp only [natCharsF, h10, if_true, List.mem_singleton] at h
      rw [h]
      exact digitChar_isDigit n h10
    · simp only [natCharsF, h10, if_false, List.mem_append, List.mem_singleton] at h
      rcases h with h | h
      · exact ih _ _ h
      · rw [h]
        exact digitChar_isDigit _ (Nat.mod_lt n (by omega))

/-- `natCharsF` is never empty at positive fuel. -/
theorem natCharsF_ne_nil (f n : Nat) : natCharsF (f + 1) n ≠ [] := by
  by_cases h10 : n < 10
  · simp [natCharsF, h10]
  · simp [natCharsF, h10]

/-- Folding digits back over a rendering recovers the value. -/
theorem natCharsF_foldl (f : Nat) : ∀ n v, n < 10 ^ f →
    (natCharsF f n).foldl digitStep v = v * 10 ^ (natCharsF f n).length + n := by
  induction f with
  | zero => intro n v h; simp at h; simp [natCharsF, h]
  | succ f ih =>
    intro n v h
    by_cases h10 : n < 10
    · simp only [natCharsF, h10, if_true, List.foldl_cons, List.foldl_nil, List.length_cons,
        List.length_nil, digitStep]
      rw [digitChar_toNat n h10]
      have hp : (10 : Nat) ^ (0 + 1) = 10 := by norm_num
      rw [hp]
      omega
    · have hf : 0 < f := by
        rcases Nat.eq_zero_or_pos f with h1 | h1
        · subst h1
          simp at h
          omega
        · exact h1
      have hdiv : n / 10 < 10 ^ f := by
        rw [Nat.div_lt_iff_lt_mul (by omega)]
        calc n < 10 ^ (f + 1) := h
          _ = 10 ^ f * 10 := by rw [Nat.pow_succ]
      simp only [natCharsF, h10, if_false, List.foldl_append, List.foldl_cons,
        List.foldl_nil, List.length_append, List.length_cons, List.length_nil]
      rw [ih _ v hdiv]
      simp only [digitStep]
      rw [digitChar_toNat _ (Nat.mod_lt n (by omega))]
      have e48 : 48 + n % 10 - 48 = n % 10 := by omega
      rw [e48]
      have hlen : (natCharsF f (n / 10)).length + (0 + 1) =
          (natCharsF f (n / 10)).length + 1 := by omega
      rw [hlen, pow_succ]
      have hre : (v * 10 ^ (natCharsF f (n / 10)).length + n / 10) * 10 + n % 10 =
          v * (10 ^ (natCharsF f (n / 10)).length * 10) + (10 * (n / 10) + n % 10) := by ring
      rw [hre, Nat.div_add_mod]

/-- Any value is below `10 ^ (n + 1)`. -/
theorem lt_ten_pow (n : Nat) : n < 10 ^ (n + 1) := by
  calc n < n + 1 := Nat.lt_succ_self n
    _ ≤ 10 ^ (n + 1) := by
      induction n with
      | zero => simp
      | succ m ih =>
        have : 10 ^ (m + 1) < 10 ^ (m + 2) := by
          exact Nat.pow_lt_pow_succ (by omega)
        omega

/-- Reading the decimal rendering of `n` yields `n`. -/
theorem natChars_foldl (n : Nat) : (natChars n).foldl digitStep 0 = n := by
  rw [natChars, natCharsF_foldl (n + 1) n 0 (lt_ten_pow n)]
  simp

/-- The decimal rendering is a nonempty list of digits. -/
theorem natChars_shape (n : Nat) :
    ∃ d ds, natChars n = d :: ds ∧ d.isDigit = true ∧ ∀ c ∈ ds, c.isDigit = true := by
  rcases hsh : natChars n with _ | ⟨d, ds⟩
  · exact absurd hsh (natCharsF_ne_nil n n)
  · refine ⟨d, ds, rfl, ?_, ?_⟩
    · exact natCharsF_digits _ _ _ (by rw [← natChars, hsh]; exact List.mem_cons_self _ _)
    · intro c hc
      exact natCharsF_digits _ _ _ (by rw [← natChars, hsh]; exact List.mem_cons_of_mem _ hc)

/-- A structure with one field is its field. -/
theorem string_mk_data (s : String) : String.mk s.data = s := rfl

/-! ## Round-trip machinery: the token streams of printed values -/

mutual
/-- The tokens a printed value lexes to. -/
def emitV : JVal → List Tok
  | .str s => [.tstr s.data]
  | .num n => [.tnum n]
  | .arr xs => .lbrack :: emitA xs ++ [.rbrack]
  | .obj fs => .lbrace :: emitO fs ++ [.rbrace]

/-- The tokens printed array elements lex to. -/
def emitA : JArr → List Tok
  | .nil => []
  | .cons v .nil => emitV v
  | .cons v rest => emitV v ++ .comma :: emitA rest

/-- The tokens printed object fields lex to. -/
def emitO : JObj → List Tok
  | .nil => []
  | .cons k v .nil => .tstr k.data :: .colon :: emitV v
  | .cons k v rest => (.tstr k.data :: .colon :: emitV v) ++ .comma :: emitO rest
end

/-! ## Round-trip machinery: lexer completeness over printed text -/

/-- The lexer run to completion from a given state. -/
def lexFrom (st : LxSt) (cs : List Char) : Option (List Tok) := lxFinal (cs.foldl lxStep st)

/-- One character of lexing. -/
theorem lexFrom_cons (st : LxSt) (c : Char) (cs : List Char) :
    lexFrom st (c :: cs) = lexFrom (lxStep st c) cs := rfl

/-- Lexing splits over concatenation. -/
theorem lexFrom_append (st : LxSt) (as bs : List Char) :
    lexFrom st (as ++ bs) = lexFrom (as.foldl lxStep st) bs := by
  unfold lexFrom
  rw [List.foldl_append]

/-- A head that cannot extend a pending number. -/
def ndh : List Char → Prop
  | [] => True
  | c :: _ => c.isDigit = false

/-- Whitespace is skipped from the top mode. -/
theorem foldl_ws (cs : List Char) (hws : ∀ c ∈ cs, c.isWhitespace = true) (toks : List Tok) :
    cs.foldl lxStep ⟨toks, .top⟩ = ⟨toks, .top⟩ := by
  induction cs with
  | nil => rfl
  | cons c cs2 ih =>
    have hc : c.isWhitespace = true := hws c (List.mem_cons_self _ _)
    have h1 : lxStep ⟨toks, .top⟩ c = ⟨toks, .top⟩ := by
      simp [lxStep, lxTop, hc]
    rw [List.foldl_cons, h1, ih (fun d hd => hws d (List.mem_cons_of_mem _ hd))]

/-- Escaped string content accumulates verbatim. -/
theorem foldl_escChars (s : List Char) : ∀ (cur : List Char) (toks : List Tok),
    (escChars s).foldl lxStep ⟨toks, .instr cur false⟩ =
      ⟨toks, .instr (s.reverse ++ cur) false⟩ := by
  induction s with
  | nil => intro cur toks; rfl
  | cons c s2 ih =>
    intro cur toks
    by_cases hesc : c = '"' ∨ c = '\\'
    · have he : escChars (c :: s2) = '\\' :: c :: escChars s2 := by
        rcases hesc with h | h <;> simp [escChars, h]
      rw [he, List.foldl_cons, List.foldl_cons]
      have h1 : lxStep ⟨toks, .instr cur false⟩ '\\' = ⟨toks, .instr cur true⟩ := by
        simp [lxStep]
      have h2 : lxStep ⟨toks, .instr cur true⟩ c = ⟨toks, .instr (c :: cur) false⟩ := by
        simp [lxStep]
      rw [h1, h2, ih]
      simp
    · push_neg at hesc
      have he : escChars (c :: s2) = c :: escChars s2 := by
        simp [escChars, hesc.1, hesc.2]
      have h1 : lxStep ⟨toks, .instr cur false⟩ c = ⟨toks, .instr (c :: cur) false⟩ := by
        simp [lxStep, hesc.1, hesc.2]
      rw [he, List.foldl_cons, h1, ih]
      simp

/-- A printed string literal lexes to its string token. -/
theorem foldl_strChars (s : String) (toks : List Tok) :
    (strChars s).foldl lxStep ⟨toks, .top⟩ = ⟨Tok.tstr s.data :: toks, .top⟩ := by
  have h1 : lxStep ⟨toks, .top⟩ '"' = ⟨toks, .instr [] false⟩ := by
    simp [lxStep, lxTop]
  have h2 : lxStep ⟨toks, .instr (s.data.reverse ++ []) false⟩ '"' =
      ⟨Tok.tstr s.data :: toks, .top⟩ := by
    simp [lxStep]
  rw [strChars, List.cons_append, List.foldl_cons, h1, List.foldl_append, foldl_escChars,
    List.foldl_cons, h2, List.foldl_nil]

/-- Digits extend a pending number by their value. -/
theorem foldl_digits (ds : List Char) : ∀ (v : Nat) (neg : Bool) (toks : List Tok),
    (∀ c ∈ ds, c.isDigit = true) →
    ds.foldl lxStep ⟨toks, .innum neg v true⟩ =
      ⟨toks, .innum neg (ds.foldl digitStep v) true⟩ := by
  induction ds with
  | nil => intro v neg toks _; rfl
  | cons c ds2 ih =>
    intro v neg toks hd
    have hc : c.isDigit = true := hd c (List.mem_cons_self _ _)
    have h1 : lxStep ⟨toks, .innum neg v true⟩ c = ⟨toks, .innum neg (digitStep v c) true⟩ := by
      simp [lxStep, hc]
    rw [List.foldl_cons, h1, ih _ _ _ (fun d hdd => hd d (List.mem_cons_of_mem _ hdd)),
      List.foldl_cons]

/-- A pending number flushes identically to an emitted token whenever
the rest cannot extend it. -/
theorem lexFrom_pending (toks : List Tok) (neg : Bool) (v : Nat) (cs : List Char)
    (h : ndh cs) :
    lexFrom ⟨toks, .innum neg v true⟩ cs =
      lexFrom ⟨Tok.tnum (if neg then -(v : Int) else (v : Int)) :: toks, .top⟩ cs := by
  cases cs with
  | nil => rfl
  | cons c cs2 =>
    have hc : c.isDigit = false := h
    rw [lexFrom_cons, lexFrom_cons]
    have h1 : lxStep ⟨toks, .innum neg v true⟩ c =
        lxTop (Tok.tnum (if neg then -(v : Int) else (v : Int)) :: toks) c := by
      simp [lxStep, hc]
    have h2 : lxStep ⟨Tok.tnum (if neg then -(v : Int) else (v : Int)) :: toks, .top⟩ c =
        lxTop (Tok.tnum (if neg then -(v : Int) else (v : Int)) :: toks) c := rfl
    rw [h1, h2]

/-- From the top mode, a digit starts a pending number. -/
theorem lxTop_digit (toks : List Tok) (c : Char) (hd : c.isDigit = true) :
    lxTop toks c = ⟨toks, .innum false (c.toNat - 48) true⟩ := by
  have hne : ∀ x : Char, x.isDigit = false → c ≠ x := by
    intro x hx h
    rw [h, hx] at hd
    cases hd
  have hws : c.isWhitespace = false := by
    rcases hws2 : c.isWhitespace with _ | _
    · rfl
    · exfalso
      have hws3 : ((c = ' ' ∨ c = '\t') ∨ c = '\r') ∨ c = '\n' := by
        simpa [Char.isWhitespace] using hws2
      rcases hws3 with ((h | h) | h) | h
      · exact hne ' ' (by decide) h
      · exact hne '\t' (by decide) h
      · exact hne '\r' (by decide) h
      · exact hne '\n' (by decide) h
  have hdl : delimTok c = none := by
    unfold delimTok
    rw [if_neg (hne '\x7b' (by decide)), if_neg (hne '\x7d' (by decide)),
      if_neg (hne '[' (by decide)), if_neg (hne ']' (by decide)),
      if_neg (hne ':' (by decide)), if_neg (hne ',' (by decide))]
  unfold lxTop
  rw [hws]
  simp only [Bool.false_eq_true, if_false]
  rw [if_neg (hne '"' (by decide)), hdl, if_pos hd]

/-- A printed integer lexes to its number token. -/
theorem lexFrom_intChars (n : Int) (toks : List Tok) (cs : List Char) (h : ndh cs) :
    lexFrom ⟨toks, .top⟩ (intChars n ++ cs) = lexFrom ⟨Tok.tnum n :: toks, .top⟩ cs := by
  by_cases hn : n < 0
  · obtain ⟨d, ds, hsh, hd, hds⟩ := natChars_shape n.natAbs
    have he : intChars n = '-' :: d :: ds := by
      rw [intChars, if_pos hn, hsh]
    rw [he]
    have h1 : lxStep ⟨toks, .top⟩ '-' = ⟨toks, .innum true 0 false⟩ := by
      simp [lxStep, lxTop, delimTok]
    have h2 : lxStep ⟨toks, .innum true 0 false⟩ d =
        ⟨toks, .innum true (digitStep 0 d) true⟩ := by
      simp [lxStep, hd]
    rw [List.cons_append, List.cons_append, lexFrom_cons, lexFrom_cons, h1, h2,
      lexFrom_append, foldl_digits _ _ _ _ hds]
    have hv : ds.foldl digitStep (digitStep 0 d) = n.natAbs := by
      have hh := natChars_foldl n.natAbs
      rw [hsh, List.foldl_cons] at hh
      exact hh
    rw [hv, lexFrom_pending _ _ _ _ h,
      show (if (true : Bool) then -(n.natAbs : Int) else (n.natAbs : Int)) = n from by
        rw [if_pos rfl]
        omega]
  · obtain ⟨d, ds, hsh, hd, hds⟩ := natChars_shape n.toNat
    have he : intChars n = d :: ds := by
      rw [intChars, if_neg hn, hsh]
    rw [he, List.cons_append, lexFrom_cons]
    have h1 : lxStep ⟨toks, .top⟩ d = ⟨toks, .innum false (d.toNat - 48) true⟩ :=
      lxTop_digit toks d hd
    rw [h1, lexFrom_append, foldl_digits _ _ _ _ hds]
    have hv : ds.foldl digitStep (d.toNat - 48) = n.toNat := by
      have hh := natChars_foldl n.toNat
      rw [hsh, List.foldl_cons] at hh
      simpa [digitStep] using hh
    rw [hv, lexFrom_pending _ _ _ _ h,
      show (if (false : Bool) then -(n.toNat : Int) else (n.toNat : Int)) = n from by
        rw [if_neg (by decide)]
        omega]

/-- Spaces are whitespace. -/
theorem spaces_ws (n : Nat) : ∀ c ∈ spaces n, c.isWhitespace = true := by
  induction n with
  | zero => intro c h; cases h
  | succ m ih =>
    intro c h
    rcases List.mem_cons.mp h with rfl | h2
    · decide
    · exact ih c h2

/-- Layout runs are whitespace. -/
theorem nlInd_ws (p : Bool) (n : Nat) : ∀ c ∈ nlInd p n, c.isWhitespace = true := by
  intro c h
  cases p with
  | true =>
    simp only [nlInd, if_true] at h
    rcases List.mem_cons.mp h with rfl | h2
    · decide
    · exact spaces_ws n c h2
  | false =>
    simp only [nlInd, Bool.false_eq_true, if_false, List.mem_singleton] at h
    rw [h]
    decide

/-- Whitespace before anything keeps the lexer state. -/
theorem lexFrom_ws (cs rest : List Char) (hws : ∀ c ∈ cs, c.isWhitespace = true)
    (toks : List Tok) :
    lexFrom ⟨toks, .top⟩ (cs ++ rest) = lexFrom ⟨toks, .top⟩ rest := by
  rw [lexFrom_append, foldl_ws cs hws]

/-- The layout run followed by anything cannot extend a number. -/
theorem ndh_nlInd (p : Bool) (n : Nat) (cs : List Char) : ndh (nlInd p n ++ cs) := by
  cases p with
  | true => exact (by decide : ('\n').isDigit = false)
  | false => exact (by decide : (' ').isDigit = false)

theorem lxStep_lbrack (toks : List Tok) :
    lxStep ⟨toks, .top⟩ '[' = ⟨Tok.lbrack :: toks, .top⟩ := rfl

theorem lxStep_rbrack (toks : List Tok) :
    lxStep ⟨toks, .top⟩ ']' = ⟨Tok.rbrack :: toks, .top⟩ := rfl

theorem lxStep_lbrace (toks : List Tok) :
    lxStep ⟨toks, .top⟩ '\x7b' = ⟨Tok.lbrace :: toks, .top⟩ := rfl

theorem lxStep_rbrace (toks : List Tok) :
    lxStep ⟨toks, .top⟩ '\x7d' = ⟨Tok.rbrace :: toks, .top⟩ := rfl

theorem lxStep_colon (toks : List Tok) :
    lxStep ⟨toks, .top⟩ ':' = ⟨Tok.colon :: toks, .top⟩ := rfl

theorem lxStep_comma (toks : List Tok) :
    lxStep ⟨toks, .top⟩ ',' = ⟨Tok.comma :: toks, .top⟩ := rfl

theorem lxStep_space (toks : List Tok) :
    lxStep ⟨toks, .top⟩ ' ' = ⟨toks, .top⟩ := rfl

/-- Lexing depends on the token accumulator only through its value. -/
theorem lexFrom_congr (t1 t2 : List Tok) (m : LxMode) (cs : List Char) (h : t1 = t2) :
    lexFrom ⟨t1, m⟩ cs = lexFrom ⟨t2, m⟩ cs := by rw [h]

mutual
/-- A printed value lexes to its token stream. -/
theorem lexV (v : JVal) : ∀ (p : Bool) (ind : Nat) (toks : List Tok) (cs : List Char),
    ndh cs → lexFrom ⟨toks, .top⟩ (pvF p ind v ++ cs) =
      lexFrom ⟨(emitV v).reverse ++ toks, .top⟩ cs := by
  cases v with
  | str s =>
    intro p ind toks cs _
    rw [show pvF p ind (.str s) = strChars s from rfl, lexFrom_append, foldl_strChars]
    rfl
  | num n =>
    intro p ind toks cs h
    rw [show pvF p ind (.num n) = intChars n from rfl, lexFrom_intChars n toks cs h]
    rfl
  | arr xs =>
    intro p ind toks cs h
    have he : pvF p ind (.arr xs) ++ cs = '[' :: (pvArr p ind xs ++ (']' :: cs)) := by
      rw [show pvF p ind (.arr xs) = ('[' :: pvArr p ind xs) ++ [']'] from rfl]
      simp only [List.append_assoc, List.cons_append, List.nil_append]
    rw [he, lexFrom_cons, lxStep_lbrack,
      lexA xs p ind _ _ (by exact (by decide : (']').isDigit = false)),
      lexFrom_cons, lxStep_rbrack]
    apply lexFrom_congr
    rw [show emitV (.arr xs) = (Tok.lbrack :: emitA xs) ++ [Tok.rbrack] from rfl]
    simp only [List.reverse_append, List.reverse_cons, List.reverse_nil, List.nil_append,
      List.append_assoc, List.cons_append]
  | obj fs =>
    cases fs with
    | nil =>
      intro p ind toks cs _
      rw [show pvF p ind (.obj .nil) ++ cs = '\x7b' :: '\x7d' :: cs from rfl,
        lexFrom_cons, lxStep_lbrace, lexFrom_cons, lxStep_rbrace]
      rfl
    | cons k v rest =>
      intro p ind toks cs h
      have he : pvF p ind (.obj (.cons k v rest)) ++ cs =
          '\x7b' :: (nlInd p (ind + 2) ++ (pvObj p (ind + 2) (.cons k v rest) ++
            (nlInd p ind ++ ('\x7d' :: cs)))) := by
        simp only [pvF]
        simp only [List.append_assoc, List.cons_append, List.nil_append]
      rw [he, lexFrom_cons, lxStep_lbrace, lexFrom_ws _ _ (nlInd_ws p (ind + 2)),
        lexO (.cons k v rest) p (ind + 2) _ _ (ndh_nlInd p ind _),
        lexFrom_ws _ _ (nlInd_ws p ind), lexFrom_cons, lxStep_rbrace]
      apply lexFrom_congr
      simp only [emitV]
      simp only [List.reverse_append, List.reverse_cons, List.reverse_nil, List.nil_append,
        List.append_assoc, List.cons_append]

/-- Printed array elements lex to their token stream. -/
theorem lexA (xs : JArr) : ∀ (p : Bool) (ind : Nat) (toks : List Tok) (cs : List Char),
    ndh cs → lexFrom ⟨toks, .top⟩ (pvArr p ind xs ++ cs) =
      lexFrom ⟨(emitA xs).reverse ++ toks, .top⟩ cs := by
  cases xs with
  | nil => intro p ind toks cs _; rfl
  | cons v rest =>
    cases rest with
    | nil =>
      intro p ind toks cs h
      exact lexV v p ind toks cs h
    | cons v2 rest2 =>
      intro p ind toks cs h
      have he : pvArr p ind (.cons v (.cons v2 rest2)) ++ cs =
          pvF p ind v ++ (',' :: ' ' :: (pvArr p ind (.cons v2 rest2) ++ cs)) := by
        simp only [pvArr]
        simp only [List.append_assoc, List.cons_append]
      rw [he, lexV v p ind _ _ (by exact (by decide : (',').isDigit = false)),
        lexFrom_cons, lxStep_comma, lexFrom_cons, lxStep_space,
        lexA (.cons v2 rest2) p ind _ _ h]
      apply lexFrom_congr
      simp only [emitA]
      simp only [List.reverse_append, List.reverse_cons, List.reverse_nil, List.nil_append,
        List.append_assoc, List.cons_append]

/-- Printed object fields lex to their token stream. -/
theorem lexO (fs : JObj) : ∀ (p : Bool) (ind : Nat) (toks : List Tok) (cs : List Char),
    ndh cs → lexFrom ⟨toks, .top⟩ (pvObj p ind fs ++ cs) =
      lexFrom ⟨(emitO fs).reverse ++ toks, .top⟩ cs := by
  cases fs with
  | nil => intro p ind toks cs _; rfl
  | cons k v rest =>
    cases rest with
    | nil =>
      intro p ind toks cs h
      have he : pvObj p ind (.cons k v .nil) ++ cs =
          strChars k ++ (':' :: ' ' :: (pvF p ind v ++ cs)) := by
        simp only [pvObj]
        simp only [List.append_assoc, List.cons_append]
      rw [he, lexFrom_append, foldl_strChars, lexFrom_cons, lxStep_colon,
        lexFrom_cons, lxStep_space, lexV v p ind _ _ h]
      apply lexFrom_congr
      simp only [emitO]
      simp only [List.reverse_cons, List.append_assoc, List.cons_append, List.nil_append]
    | cons k2 v2 rest2 =>
      intro p ind toks cs h
      have he : pvObj p ind (.cons k v (.cons k2 v2 rest2)) ++ cs =
          strChars k ++ (':' :: ' ' :: (pvF p ind v ++ (',' :: (nlInd p ind ++
            (pvObj p ind (.cons k2 v2 rest2) ++ cs))))) := by
        simp only [pvObj]
        simp only [List.append_assoc, List.cons_append]
      rw [he, lexFrom_append, foldl_strChars, lexFrom_cons, lxStep_colon,
        lexFrom_cons, lxStep_space,
        lexV v p ind _ _ (by exact (by decide : (',').isDigit = false)),
        lexFrom_cons, lxStep_comma, lexFrom_ws _ _ (nlInd_ws p ind),
        lexO (.cons k2 v2 rest2) p ind _ _ h]
      apply lexFrom_congr
      simp only [emitO]
      simp only [List.reverse_append, List.reverse_cons, List.reverse_nil, List.nil_append,
        List.append_assoc, List.cons_append]
end

/-! ## Round-trip machinery: parser completeness over emitted tokens -/

/-- Parsing a string token. -/
theorem pVal_str (f : Nat) (cs : List Char) (ts : List Tok) :
    pVal (f + 1) (.tstr cs :: ts) = some (.str (String.mk cs), ts) := rfl

/-- Parsing a number token. -/
theorem pVal_num (f : Nat) (n : Int) (ts : List Tok) :
    pVal (f + 1) (.tnum n :: ts) = some (.num n, ts) := rfl

/-- The array branch when the first element token is not `]`. -/
theorem pVal_arr_step (f : Nat) (t : Tok) (rest : List Tok) (ht : t ≠ Tok.rbrack) :
    pVal (f + 1) (.lbrack :: t :: rest) =
      (match pVal f (t :: rest) with
       | some (v, ts2) =>
         match ts2 with
         | .comma :: ts3 =>
           (match pVal f (.lbrack :: ts3) with
            | some (.arr vs, ts4) => some (.arr (.cons v vs), ts4)
            | _ => none)
         | .rbrack :: ts3 => some (.arr (.cons v .nil), ts3)
         | _ => none
       | none => none) := by
  cases t <;> first | rfl | exact absurd rfl ht

/-- The object branch at a string key. -/
theorem pVal_obj_step (f : Nat) (cs : List Char) (rest : List Tok) :
    pVal (f + 1) (.lbrace :: .tstr cs :: rest) =
      (match rest with
       | .colon :: ts3 =>
         (match pVal f ts3 with
          | some (v, ts4) =>
            match ts4 with
            | .comma :: ts5 =>
              (match pVal f (.lbrace :: ts5) with
               | some (.obj fs, ts6) => some (.obj (.cons (String.mk cs) v fs), ts6)
               | _ => none)
            | .rbrace :: ts5 => some (.obj (.cons (String.mk cs) v .nil), ts5)
            | _ => none
          | none => none)
       | _ => none) := rfl

/-- Values emit at least one token, starting with a non-delimiter. -/
theorem emitV_head (v : JVal) : ∃ t vr, emitV v = t :: vr ∧ t ≠ Tok.rbrack := by
  cases v with
  | str s => exact ⟨_, _, rfl, fun h => Tok.noConfusion h⟩
  | num n => exact ⟨_, _, rfl, fun h => Tok.noConfusion h⟩
  | arr xs =>
    refine ⟨Tok.lbrack, emitA xs ++ [Tok.rbrack], ?_, fun h => Tok.noConfusion h⟩
    simp [emitV]
  | obj fs =>
    refine ⟨Tok.lbrace, emitO fs ++ [Tok.rbrace], ?_, fun h => Tok.noConfusion h⟩
    simp [emitV]

mutual
/-- Parsing what a value emits returns that value. -/
theorem pvalV (v : JVal) : ∀ (f : Nat) (ts : List Tok), (emitV v).length ≤ f →
    pVal f (emitV v ++ ts) = some (v, ts) := by
  cases v with
  | str s =>
    intro f ts hf
    obtain ⟨g, rfl⟩ : ∃ g, f = g + 1 := ⟨f - 1, by simp [emitV] at hf; omega⟩
    rw [show emitV (.str s) ++ ts = .tstr s.data :: ts from rfl, pVal_str, string_mk_data]
  | num n =>
    intro f ts hf
    obtain ⟨g, rfl⟩ : ∃ g, f = g + 1 := ⟨f - 1, by simp [emitV] at hf; omega⟩
    rw [show emitV (.num n) ++ ts = .tnum n :: ts from rfl, pVal_num]
  | arr xs =>
    intro f ts hf
    have hlen : (emitA xs).length + 2 ≤ f := by
      simp only [emitV, List.length_append, List.length_cons, List.length_singleton] at hf
      omega
    have he : emitV (.arr xs) ++ ts = .lbrack :: (emitA xs ++ .rbrack :: ts) := by
      simp [emitV]
    rw [he, pvalA xs f ts hlen]
  | obj fs =>
    intro f ts hf
    have hlen : (emitO fs).length + 2 ≤ f := by
      simp only [emitV, List.length_append, List.length_cons, List.length_singleton] at hf
      omega
    have he : emitV (.obj fs) ++ ts = .lbrace :: (emitO fs ++ .rbrace :: ts) := by
      simp [emitV]
    rw [he, pvalO fs f ts hlen]

/-- Parsing what array elements emit returns those elements. -/
theorem pvalA (xs : JArr) : ∀ (f : Nat) (ts : List Tok), (emitA xs).length + 2 ≤ f →
    pVal f (.lbrack :: (emitA xs ++ .rbrack :: ts)) = some (.arr xs, ts) := by
  cases xs with
  | nil =>
    intro f ts hf
    obtain ⟨g, rfl⟩ : ∃ g, f = g + 1 := ⟨f - 1, by omega⟩
    rfl
  | cons v rest =>
    cases rest with
    | nil =>
      intro f ts hf
      obtain ⟨g, rfl⟩ : ∃ g, f = g + 1 := ⟨f - 1, by omega⟩
      have hg : (emitV v).length ≤ g := by
        simp only [emitA] at hf
        omega
      obtain ⟨t, vr, hh, ht⟩ := emitV_head v
      have he : emitA (.cons v .nil) ++ .rbrack :: ts = t :: (vr ++ .rbrack :: ts) := by
        rw [show emitA (.cons v .nil) = emitV v from rfl, hh]
        simp
      rw [he, pVal_arr_step g t _ ht]
      have hp : pVal g (t :: (vr ++ .rbrack :: ts)) = some (v, .rbrack :: ts) := by
        have := pvalV v g (.rbrack :: ts) hg
        rw [hh] at this
        simpa using this
      rw [hp]
    | cons v2 rest2 =>
      intro f ts hf
      obtain ⟨g, rfl⟩ : ∃ g, f = g + 1 := ⟨f - 1, by omega⟩
      have hflen : (emitA (.cons v (.cons v2 rest2))).length =
          (emitV v).length + 1 + (emitA (.cons v2 rest2)).length := by
        simp only [emitA]
        simp
        omega
      have hg1 : (emitV v).length ≤ g := by omega
      have hg2 : (emitA (.cons v2 rest2)).length + 2 ≤ g := by omega
      obtain ⟨t, vr, hh, ht⟩ := emitV_head v
      have he : emitA (.cons v (.cons v2 rest2)) ++ .rbrack :: ts =
          t :: (vr ++ (.comma :: (emitA (.cons v2 rest2) ++ .rbrack :: ts))) := by
        rw [show emitA (.cons v (.cons v2 rest2)) =
          emitV v ++ .comma :: emitA (.cons v2 rest2) from rfl, hh]
        simp
      rw [he, pVal_arr_step g t _ ht]
      have hp : pVal g (t :: (vr ++ (.comma :: (emitA (.cons v2 rest2) ++ .rbrack :: ts)))) =
          some (v, .comma :: (emitA (.cons v2 rest2) ++ .rbrack :: ts)) := by
        have := pvalV v g (.comma :: (emitA (.cons v2 rest2) ++ .rbrack :: ts)) hg1
        rw [hh] at this
        simpa using this
      rw [hp]
      have hrest := pvalA (.cons v2 rest2) g ts hg2
      simp only [hrest]

/-- Parsing what object fields emit returns those fields. -/
theorem pvalO (fs : JObj) : ∀ (f : Nat) (ts : List Tok), (emitO fs).length + 2 ≤ f →
    pVal f (.lbrace :: (emitO fs ++ .rbrace :: ts)) = some (.obj fs, ts) := by
  cases fs with
  | nil =>
    intro f ts hf
    obtain ⟨g, rfl⟩ : ∃ g, f = g + 1 := ⟨f - 1, by omega⟩
    rfl
  | cons k v rest =>
    cases rest with
    | nil =>
      intro f ts hf
      obtain ⟨g, rfl⟩ : ∃ g, f = g + 1 := ⟨f - 1, by omega⟩
      have hg : (emitV v).length ≤ g := by
        simp only [emitO, List.length_cons] at hf
        omega
      have he : emitO (.cons k v .nil) ++ .rbrace :: ts =
          .tstr k.data :: (.colon :: (emitV v ++ .rbrace :: ts)) := by
        rw [show emitO (.cons k v .nil) = .tstr k.data :: .colon :: emitV v from rfl]
        simp
      rw [he, pVal_obj_step g k.data _]
      have hv := pvalV v g (.rbrace :: ts) hg
      simp only [hv, string_mk_data]
    | cons k2 v2 rest2 =>
      intro f ts hf
      obtain ⟨g, rfl⟩ : ∃ g, f = g + 1 := ⟨f - 1, by omega⟩
      have hflen : (emitO (.cons k v (.cons k2 v2 rest2))).length =
          (emitV v).length + 3 + (emitO (.cons k2 v2 rest2)).length := by
        simp only [emitO]
        simp
        omega
      have hg1 : (emitV v).length ≤ g := by omega
      have hg2 : (emitO (.cons k2 v2 rest2)).length + 2 ≤ g := by omega
      have he : emitO (.cons k v (.cons k2 v2 rest2)) ++ .rbrace :: ts =
          .tstr k.data :: (.colon :: (emitV v ++
            (.comma :: (emitO (.cons k2 v2 rest2) ++ .rbrace :: ts)))) := by
        rw [show emitO (.cons k v (.cons k2 v2 rest2)) =
          (Tok.tstr k.data :: Tok.colon :: emitV v) ++
            Tok.comma :: emitO (.cons k2 v2 rest2) from rfl]
        simp
      rw [he, pVal_obj_step g k.data _]
      have hv := pvalV v g (.comma :: (emitO (.cons k2 v2 rest2) ++ .rbrace :: ts)) hg1
      have ho := pvalO (.cons k2 v2 rest2) g ts hg2
      simp only [hv, ho, string_mk_data]
end

/-! ## Round-trip machinery: lexing and parsing a printed object -/

/-- Lexing a printed object yields its emitted tokens. -/
theorem lex_objChars (p : Bool) (o : JObj) :
    lex (objChars p o) = some (emitV (.obj (canonF o))) := by
  have h1 : lexFrom ⟨[], .top⟩ (pvF p 0 (.obj (canonF o)) ++ []) =
      lexFrom ⟨(emitV (.obj (canonF o))).reverse ++ [], .top⟩ [] :=
    lexV (.obj (canonF o)) p 0 [] [] trivial
  rw [List.append_nil] at h1
  show lexFrom ⟨[], .top⟩ (objChars p o) = _
  rw [objChars, h1]
  show lxFinal ⟨(emitV (.obj (canonF o))).reverse ++ [], .top⟩ = _
  rw [List.append_nil]
  show some ((emitV (.obj (canonF o))).reverse.reverse) = _
  rw [List.reverse_reverse]

/-- Parsing a printed object recovers its canonical field list. -/
theorem parseLit_objChars (p : Bool) (o : JObj) :
    parseLit (objChars p o) = some (canonF o) := by
  rw [parseLit, lex_objChars]
  have he : emitV (.obj (canonF o)) =
      .lbrace :: (emitO (canonF o) ++ .rbrace :: ([] : List Tok)) := by
    simp [emitV]
  have hlen : (emitO (canonF o)).length + 2 ≤ (emitV (.obj (canonF o))).length + 1 := by
    simp [emitV]
  have hp := pvalO (canonF o) ((emitV (.obj (canonF o))).length + 1) [] hlen
  rw [← he] at hp
  show (match pVal ((emitV (.obj (canonF o))).length + 1) (emitV (.obj (canonF o))) with
        | some (.obj fs, []) => some fs
        | _ => none) = some (canonF o)
  rw [hp]

/-! ## Round-trip machinery: the canonical reordering is idempotent -/

/-- Lookup through an append. -/
theorem lookup_append : ∀ (o1 o2 : JObj) (k : String),
    (o1.append o2).lookup k =
      (match o1.lookup k with
       | some v => some v
       | none => o2.lookup k)
  | .nil, o2, k => rfl
  | .cons k2 v rest, o2, k => by
    by_cases h : k2 = k
    · simp [JObj.append, JObj.lookup, h]
    · simp only [JObj.append, JObj.lookup, if_neg h]
      exact lookup_append rest o2 k

/-- Lookup through a key filter. -/
theorem lookup_filterKeys : ∀ (pf : String → Bool) (o : JObj) (k : String),
    (o.filterKeys pf).lookup k = if pf k = true then o.lookup k else none
  | pf, .nil, k => by simp [JObj.filterKeys, JObj.lookup]
  | pf, .cons k2 v rest, k => by
    by_cases hp : pf k2 = true
    · by_cases hk : k2 = k
      · subst hk
        simp [JObj.filterKeys, hp, JObj.lookup]
      · simp only [JObj.filterKeys, hp, if_true, JObj.lookup, if_neg hk]
        exact lookup_filterKeys pf rest k
    · by_cases hk : k2 = k
      · subst hk
        have hpf : pf k2 = false := by
          rcases hb : pf k2 with _ | _
          · rfl
          · exact absurd hb hp
        simp only [JObj.filterKeys, hp, if_false, lookup_filterKeys pf rest k2, hpf,
          Bool.false_eq_true]
      · simp only [JObj.filterKeys, hp, Bool.false_eq_true, if_false,
          lookup_filterKeys pf rest k]
        rw [show JObj.lookup k (JObj.cons k2 v rest) = JObj.lookup k rest from by
          simp [JObj.lookup, hk]]

/-- Lookup through the key buckets. -/
theorem lookup_bucketFields (o : JObj) : ∀ (ks : List String) (k : String),
    (bucketFields o ks).lookup k = if k ∈ ks then o.lookup k else none := by
  intro ks
  induction ks with
  | nil => intro k; simp [bucketFields, JObj.lookup]
  | cons k1 ks2 ih =>
    intro k
    rw [bucketFields, lookup_append, lookup_filterKeys, ih]
    by_cases hk : k = k1
    · subst hk
      rw [if_pos (by simp), if_pos (List.mem_cons_self k ks2)]
      cases ho : o.lookup k with
      | some v => rfl
      | none => by_cases hm : k ∈ ks2 <;> simp [hm]
    · rw [if_neg (by simp [hk])]
      by_cases hm : k ∈ ks2
      · simp [hm, hk]
      · simp [hm, hk]

/-- Canonical reordering does not change lookups. -/
theorem lookup_canonF (o : JObj) (k : String) : (canonF o).lookup k = o.lookup k := by
  rw [canonF, lookup_append, lookup_bucketFields, lookup_filterKeys]
  by_cases hm : k ∈ keyOrder (typeOf o)
  · rw [if_pos hm]
    cases ho : o.lookup k with
    | some v => rfl
    | none =>
      have hc : (keyOrder (typeOf o)).contains k = true := List.elem_eq_true_of_mem hm
      simp [hc, ho]
  · rw [if_neg hm]
    have hc : (keyOrder (typeOf o)).contains k = false := by
      rcases hb : (keyOrder (typeOf o)).contains k with _ | _
      · rfl
      · exact absurd (List.mem_of_elem_eq_true hb) hm
    show (if (!(keyOrder (typeOf o)).contains k) = true then o.lookup k else none) =
      o.lookup k
    rw [hc]
    simp

/-- Canonical reordering does not change the type. -/
theorem typeOf_canonF (o : JObj) : typeOf (canonF o) = typeOf o := by
  rw [typeOf, lookup_canonF, typeOf]

/-- Filtering an append. -/
theorem filterKeys_append : ∀ (pf : String → Bool) (o1 o2 : JObj),
    (o1.append o2).filterKeys pf = (o1.filterKeys pf).append (o2.filterKeys pf)
  | pf, .nil, o2 => rfl
  | pf, .cons k v rest, o2 => by
    by_cases hp : pf k = true
    · simp [JObj.append, JObj.filterKeys, hp, filterKeys_append pf rest o2]
    · simp [JObj.append, JObj.filterKeys, hp, filterKeys_append pf rest o2]

/-- Two filters compose. -/
theorem filterKeys_filterKeys : ∀ (pf qf : String → Bool) (o : JObj),
    (o.filterKeys qf).filterKeys pf = o.filterKeys (fun k => qf k && pf k)
  | pf, qf, .nil => rfl
  | pf, qf, .cons k v rest => by
    by_cases hq : qf k = true
    · by_cases hp : pf k = true
      · simp [JObj.filterKeys, hq, hp, filterKeys_filterKeys pf qf rest]
      · simp [JObj.filterKeys, hq, hp, filterKeys_filterKeys pf qf rest]
    · simp [JObj.filterKeys, hq, filterKeys_filterKeys pf qf rest]

/-- Filters agreeing pointwise agree. -/
theorem filterKeys_congr : ∀ (pf qf : String → Bool) (o : JObj),
    (∀ k, pf k = qf k) → o.filterKeys pf = o.filterKeys qf
  | pf, qf, .nil, _ => rfl
  | pf, qf, .cons k v rest, h => by
    simp [JObj.filterKeys, h k, filterKeys_congr pf qf rest h]

/-- The always-false filter is empty. -/
theorem filterKeys_false : ∀ (o : JObj), o.filterKeys (fun _ => false) = .nil
  | .nil => rfl
  | .cons k v rest => by simp [JObj.filterKeys, filterKeys_false rest]

/-- Appending nothing changes nothing. -/
theorem append_nil_jobj : ∀ (o : JObj), o.append .nil = o
  | .nil => rfl
  | .cons k v rest => by simp [JObj.append, append_nil_jobj rest]

/-- Filtering one key out of the buckets of other keys gives nothing. -/
theorem filter_bucketFields_not_mem (o : JObj) : ∀ (ks : List String) (k : String),
    k ∉ ks → (bucketFields o ks).filterKeys (· = k) = .nil := by
  intro ks
  induction ks with
  | nil => intro k _; rfl
  | cons k1 ks2 ih =>
    intro k h
    have hk1 : k ≠ k1 := fun hc => h (hc ▸ List.mem_cons_self k1 ks2)
    have hne : ¬(k1 = k) := fun hc => hk1 hc.symm
    rw [bucketFields, filterKeys_append, filterKeys_filterKeys]
    rw [filterKeys_congr _ (fun _ => false) o
      (by intro x; by_cases hx : x = k1 <;> simp [hx, hne]), filterKeys_false,
      ih k (fun hm => h (List.mem_cons_of_mem _ hm))]
    rfl

/-- Filtering one of the bucket keys out of the buckets recovers its
filter of the original object. -/
theorem filter_bucketFields_mem (o : JObj) : ∀ (ks : List String) (k : String),
    k ∈ ks → ks.Nodup →
    (bucketFields o ks).filterKeys (· = k) = o.filterKeys (· = k) := by
  intro ks
  induction ks with
  | nil => intro k hmem _; cases hmem
  | cons k1 ks2 ih =>
    intro k hmem hnd
    rw [bucketFields, filterKeys_append, filterKeys_filterKeys]
    rcases List.mem_cons.mp hmem with rfl | hm2
    · have hnot : k ∉ ks2 := (List.nodup_cons.mp hnd).1
      rw [filter_bucketFields_not_mem o ks2 k hnot, append_nil_jobj]
      exact filterKeys_congr _ _ o (by intro x; by_cases hx : x = k <;> simp [hx])
    · have hk1 : k ≠ k1 := by
        rintro rfl
        exact (List.nodup_cons.mp hnd).1 hm2
      have hne : ¬(k1 = k) := fun hc => hk1 hc.symm
      rw [filterKeys_congr _ (fun _ => false) o
        (by intro x; by_cases hx : x = k1 <;> simp [hx, hne]), filterKeys_false,
        ih k hm2 (List.nodup_cons.mp hnd).2]
      rfl

/-- Buckets depend only on the per-key filters. -/
theorem bucketFields_congr (a b : JObj) : ∀ (ks : List String),
    (∀ k ∈ ks, a.filterKeys (· = k) = b.filterKeys (· = k)) →
    bucketFields a ks = bucketFields b ks := by
  intro ks
  induction ks with
  | nil => intro _; rfl
  | cons k1 ks2 ih =>
    intro h
    rw [bucketFields, bucketFields, h k1 (List.mem_cons_self _ _),
      ih (fun k hk => h k (List.mem_cons_of_mem _ hk))]

/-- The canonical key lists carry no duplicates. -/
theorem keyOrder_nodup (t : String) : (keyOrder t).Nodup := by
  rw [keyOrder]
  split_ifs <;> decide

/-- Filtering the buckets with a predicate false on every bucket key
gives nothing. -/
theorem filter_bucketFields_all_false (o : JObj) : ∀ (pf : String → Bool)
    (ks : List String), (∀ k2 ∈ ks, pf k2 = false) →
    (bucketFields o ks).filterKeys pf = .nil := by
  intro pf ks
  induction ks with
  | nil => intro _; rfl
  | cons k1 ks2 ih =>
    intro h
    rw [bucketFields, filterKeys_append, filterKeys_filterKeys,
      filterKeys_congr _ (fun _ => false) o (by
        intro x
        by_cases hx : x = k1
        · subst hx
          simp [h x (List.mem_cons_self _ _)]
        · simp [hx]), filterKeys_false,
      ih (fun k hk => h k (List.mem_cons_of_mem _ hk))]
    rfl

/-- The canonical reordering is idempotent. -/
theorem canonF_idem (o : JObj) : canonF (canonF o) = canonF o := by
  have hnd : (keyOrder (typeOf o)).Nodup := keyOrder_nodup _
  have hco : canonF o = (bucketFields o (keyOrder (typeOf o))).append
      (o.filterKeys (fun k => !((keyOrder (typeOf o)).contains k))) := rfl
  have hfk : ∀ k, k ∈ keyOrder (typeOf o) →
      (canonF o).filterKeys (· = k) = o.filterKeys (· = k) := by
    intro k hk
    rw [hco, filterKeys_append]
    have h1 : (bucketFields o (keyOrder (typeOf o))).filterKeys (· = k) =
        o.filterKeys (· = k) :=
      filter_bucketFields_mem o (keyOrder (typeOf o)) k hk hnd
    have h2 : ((o.filterKeys (fun k2 => !((keyOrder (typeOf o)).contains k2))).filterKeys
        (· = k)) = JObj.nil := by
      rw [filterKeys_filterKeys]
      have hcongr : ∀ x, ((!((keyOrder (typeOf o)).contains x)) && decide (x = k)) = false := by
        intro x
        by_cases hx : x = k
        · have hc : (keyOrder (typeOf o)).contains x = true := by
            rw [hx]
            exact List.elem_eq_true_of_mem hk
          simp only [hc, Bool.not_true, Bool.false_and]
        · simp [hx]
      rw [filterKeys_congr _ (fun _ => false) o hcongr, filterKeys_false]
    rw [h1, h2, append_nil_jobj]
  have hb : bucketFields (canonF o) (keyOrder (typeOf o)) =
      bucketFields o (keyOrder (typeOf o)) := bucketFields_congr _ _ _ hfk
  have hf2 : (canonF o).filterKeys (fun k => !((keyOrder (typeOf o)).contains k)) =
      o.filterKeys (fun k => !((keyOrder (typeOf o)).contains k)) := by
    rw [hco, filterKeys_append]
    have h1 : (bucketFields o (keyOrder (typeOf o))).filterKeys
        (fun k => !((keyOrder (typeOf o)).contains k)) = JObj.nil := by
      apply filter_bucketFields_all_false
      intro k2 hk2
      have hc : (keyOrder (typeOf o)).contains k2 = true := List.elem_eq_true_of_mem hk2
      simp only [hc, Bool.not_true]
    have h2 : ((o.filterKeys (fun k => !((keyOrder (typeOf o)).contains k))).filterKeys
        (fun k => !((keyOrder (typeOf o)).contains k))) =
        o.filterKeys (fun k => !((keyOrder (typeOf o)).contains k)) := by
      rw [filterKeys_filterKeys]
      exact filterKeys_congr _ _ o (by
        intro x
        cases hx : (keyOrder (typeOf o)).contains x <;> simp [hx])
    rw [h1, h2]
    rfl
  have hcc : canonF (canonF o) =
      (bucketFields (canonF o) (keyOrder (typeOf o))).append
        ((canonF o).filterKeys (fun k => !((keyOrder (typeOf o)).contains k))) := by
    rw [show canonF (canonF o) =
      (bucketFields (canonF o) (keyOrder (typeOf (canonF o)))).append
        ((canonF o).filterKeys
          (fun k => !((keyOrder (typeOf (canonF o))).contains k))) from rfl,
      typeOf_canonF]
  rw [hcc, hb, hf2, ← hco]

/-- Printing ignores a second canonicalisation. -/
theorem objChars_canonF (p : Bool) (o : JObj) : objChars p (canonF o) = objChars p o := by
  rw [objChars, objChars, canonF_idem]


/-! ## Round-trip machinery: the splitter recovers printed literals -/

/-- Newline count of a cons. -/
theorem nlCount_cons (c : Char) (cs : List Char) :
    nlCount (c :: cs) = (if c = '\n' then 1 else 0) + nlCount cs := by
  rw [nlCount, List.filter_cons]
  by_cases h : c = '\n'
  · rw [if_pos (by simp [h]), if_pos h, List.length_cons, nlCount]
    omega
  · rw [if_neg (by simp [h]), if_neg h, nlCount]
    omega

/-- Newline count of an append. -/
theorem nlCount_append (a b : List Char) : nlCount (a ++ b) = nlCount a + nlCount b := by
  simp [nlCount, List.filter_append]

/-- Two splitter states with equal fields are equal. -/
theorem spst_ext (l1 l2 : Nat) (o : List Chunk) (m1 m2 : SpMode) (h1 : l1 = l2)
    (h2 : m1 = m2) : (⟨l1, o, m1⟩ : SpSt) = ⟨l2, o, m2⟩ := by
  rw [h1, h2]

/-- A non-delimiter character inside a literal is collected. -/
theorem spStep_lit_plain (line : Nat) (out : List Chunk) (sl d : Nat) (cur : List Char)
    (c : Char) (h1 : c ≠ '"') (h2 : c ≠ '\x7b') (h3 : c ≠ '\x7d') :
    spStep ⟨line, out, .lit sl d false false cur⟩ c =
      ⟨(if c = '\n' then line + 1 else line), out, .lit sl d false false (c :: cur)⟩ := by
  simp only [spStep]
  rw [if_neg (by decide), if_neg h1, if_neg h2, if_neg h3]

/-- Inside a string, an unescaped plain character is collected. -/
theorem spStep_instr_plain (line : Nat) (out : List Chunk) (sl d : Nat) (cur : List Char)
    (c : Char) (h1 : c ≠ '\\') (h2 : c ≠ '"') :
    spStep ⟨line, out, .lit sl d true false cur⟩ c =
      ⟨(if c = '\n' then line + 1 else line), out, .lit sl d true false (c :: cur)⟩ := by
  simp only [spStep]
  rw [if_pos trivial, if_neg (by decide), if_neg h1, if_neg h2]

/-- After a backslash, any character is collected and escaping ends. -/
theorem spStep_esc (line : Nat) (out : List Chunk) (sl d : Nat) (cur : List Char) (c : Char) :
    spStep ⟨line, out, .lit sl d true true cur⟩ c =
      ⟨(if c = '\n' then line + 1 else line), out, .lit sl d true false (c :: cur)⟩ := by
  simp only [spStep]
  rw [if_pos trivial, if_pos trivial]

/-- An opening quote enters string mode. -/
theorem spStep_lit_quote (line : Nat) (out : List Chunk) (sl d : Nat) (cur : List Char) :
    spStep ⟨line, out, .lit sl d false false cur⟩ '"' =
      ⟨line, out, .lit sl d true false ('"' :: cur)⟩ := rfl

/-- A backslash inside a string starts an escape. -/
theorem spStep_instr_bslash (line : Nat) (out : List Chunk) (sl d : Nat) (cur : List Char) :
    spStep ⟨line, out, .lit sl d true false cur⟩ '\\' =
      ⟨line, out, .lit sl d true true ('\\' :: cur)⟩ := rfl

/-- A closing quote leaves string mode. -/
theorem spStep_instr_quote (line : Nat) (out : List Chunk) (sl d : Nat) (cur : List Char) :
    spStep ⟨line, out, .lit sl d true false cur⟩ '"' =
      ⟨line, out, .lit sl d false false ('"' :: cur)⟩ := rfl

/-- An open brace inside a literal deepens the nesting. -/
theorem spStep_lit_open (line : Nat) (out : List Chunk) (sl d : Nat) (cur : List Char) :
    spStep ⟨line, out, .lit sl d false false cur⟩ '\x7b' =
      ⟨line, out, .lit sl (d + 1) false false ('\x7b' :: cur)⟩ := rfl

/-- A close brace above depth one shallows the nesting. -/
theorem spStep_lit_close (line : Nat) (out : List Chunk) (sl d : Nat) (cur : List Char)
    (h : ¬ d = 1) :
    spStep ⟨line, out, .lit sl d false false cur⟩ '\x7d' =
      ⟨line, out, .lit sl (d - 1) false false ('\x7d' :: cur)⟩ := by
  rw [show spStep ⟨line, out, .lit sl d false false cur⟩ '\x7d' =
    (if d = 1 then ⟨line, ⟨sl, ('\x7d' :: cur).reverse⟩ :: out, .idle⟩
     else ⟨line, out, .lit sl (d - 1) false false ('\x7d' :: cur)⟩) from rfl, if_neg h]

/-- A close brace at depth one emits the finished chunk. -/
theorem spStep_lit_close1 (line : Nat) (out : List Chunk) (sl : Nat) (cur : List Char) :
    spStep ⟨line, out, .lit sl 1 false false cur⟩ '\x7d' =
      ⟨line, ⟨sl, ('\x7d' :: cur).reverse⟩ :: out, .idle⟩ := rfl

/-- An open brace from idle starts a literal on the current line. -/
theorem spStep_idle_open (line : Nat) (out : List Chunk) :
    spStep ⟨line, out, .idle⟩ '\x7b' = ⟨line, out, .lit line 1 false false ['\x7b']⟩ := rfl

/-- Whitespace from idle only advances the line counter. -/
theorem spStep_idle_ws (line : Nat) (out : List Chunk) (c : Char)
    (h : c.isWhitespace = true) :
    spStep ⟨line, out, .idle⟩ c = ⟨(if c = '\n' then line + 1 else line), out, .idle⟩ := by
  have hws3 : ((c = ' ' ∨ c = '\t') ∨ c = '\r') ∨ c = '\n' := by
    simpa [Char.isWhitespace] using h
  have hne : ¬ c = '\x7b' := by
    rcases hws3 with ((h2 | h2) | h2) | h2 <;> subst h2 <;> decide
  simp only [spStep]
  rw [if_neg hne, if_pos h]

/-- A whitespace character is not a quote or a brace. -/
theorem ws_plain (c : Char) (h : c.isWhitespace = true) :
    c ≠ '"' ∧ c ≠ '\x7b' ∧ c ≠ '\x7d' := by
  have hws3 : ((c = ' ' ∨ c = '\t') ∨ c = '\r') ∨ c = '\n' := by
    simpa [Char.isWhitespace] using h
  rcases hws3 with ((h2 | h2) | h2) | h2 <;> subst h2 <;>
    exact ⟨by decide, by decide, by decide⟩

/-- A digit is not a quote or a brace. -/
theorem digit_plain (c : Char) (h : c.isDigit = true) :
    c ≠ '"' ∧ c ≠ '\x7b' ∧ c ≠ '\x7d' := by
  refine ⟨?_, ?_, ?_⟩ <;> rintro rfl <;> exact absurd h (by decide)

/-- A printed integer holds no quote or brace. -/
theorem intChars_plain (n : Int) : ∀ c ∈ intChars n,
    c ≠ '"' ∧ c ≠ '\x7b' ∧ c ≠ '\x7d' := by
  intro c hc
  rw [intChars] at hc
  by_cases hn : n < 0
  · rw [if_pos hn] at hc
    rcases List.mem_cons.mp hc with rfl | hm
    · exact ⟨by decide, by decide, by decide⟩
    · exact digit_plain c (natCharsF_digits _ _ c hm)
  · rw [if_neg hn] at hc
    exact digit_plain c (natCharsF_digits _ _ c hc)

/-- Folding delimiter-free characters just collects them. -/
theorem spFold_plain : ∀ (cs : List Char),
    (∀ c ∈ cs, c ≠ '"' ∧ c ≠ '\x7b' ∧ c ≠ '\x7d') →
    ∀ (line : Nat) (out : List Chunk) (sl d : Nat) (cur : List Char),
    List.foldl spStep ⟨line, out, .lit sl d false false cur⟩ cs =
      ⟨line + nlCount cs, out, .lit sl d false false (cs.reverse ++ cur)⟩
  | [], _, line, out, sl, d, cur => by simp [nlCount]
  | c :: cs, h, line, out, sl, d, cur => by
    obtain ⟨h1, h2, h3⟩ := h c (List.mem_cons_self c cs)
    rw [List.foldl_cons, spStep_lit_plain line out sl d cur c h1 h2 h3,
      spFold_plain cs (fun x hx => h x (List.mem_cons_of_mem c hx))]
    apply spst_ext
    · rw [nlCount_cons]
      by_cases hc : c = '\n'
      · rw [if_pos hc, if_pos hc]; omega
      · rw [if_neg hc, if_neg hc]; omega
    · exact congrArg (SpMode.lit sl d false false) (by
        simp [List.reverse_cons, List.append_assoc])

/-- Folding an escaped string body stays in string mode. -/
theorem spFold_esc : ∀ (l : List Char) (line : Nat) (out : List Chunk) (sl d : Nat)
    (cur : List Char),
    List.foldl spStep ⟨line, out, .lit sl d true false cur⟩ (escChars l) =
      ⟨line + nlCount (escChars l), out, .lit sl d true false ((escChars l).reverse ++ cur)⟩
  | [], line, out, sl, d, cur => by simp [escChars, nlCount]
  | c :: l, line, out, sl, d, cur => by
    by_cases hc : c = '"' ∨ c = '\\'
    · have he : escChars (c :: l) = '\\' :: c :: escChars l := by
        rcases hc with hc | hc <;> simp [escChars, hc]
      have hcn : ¬ c = '\n' := by rcases hc with hc | hc <;> subst hc <;> decide
      rw [he, List.foldl_cons, spStep_instr_bslash, List.foldl_cons, spStep_esc,
        if_neg hcn, spFold_esc l]
      apply spst_ext
      · rw [nlCount_cons, nlCount_cons, if_neg hcn, if_neg (by decide)]
        omega
      · exact congrArg (SpMode.lit sl d true false) (by
          simp [List.reverse_cons, List.append_assoc])
    · rw [not_or] at hc
      obtain ⟨hq, hb⟩ := hc
      have he : escChars (c :: l) = c :: escChars l := by
        simp only [escChars]
        rw [if_neg (by simp [hq, hb])]
      rw [he, List.foldl_cons, spStep_instr_plain line out sl d cur c hb hq, spFold_esc l]
      apply spst_ext
      · rw [nlCount_cons]
        by_cases hn : c = '\n'
        · rw [if_pos hn, if_pos hn]; omega
        · rw [if_neg hn, if_neg hn]; omega
      · exact congrArg (SpMode.lit sl d true false) (by
          simp [List.reverse_cons, List.append_assoc])

/-- Folding a quoted string literal collects it without leaving the literal. -/
theorem spFold_str (s : String) (line : Nat) (out : List Chunk) (sl d : Nat)
    (cur : List Char) :
    List.foldl spStep ⟨line, out, .lit sl d false false cur⟩ (strChars s) =
      ⟨line + nlCount (strChars s), out, .lit sl d false false ((strChars s).reverse ++ cur)⟩ := by
  rw [show strChars s = '"' :: (escChars s.data ++ ['"']) from rfl, List.foldl_cons,
    spStep_lit_quote, List.foldl_append, spFold_esc, List.foldl_cons, spStep_instr_quote,
    List.foldl_nil]
  apply spst_ext
  · rw [nlCount_cons, nlCount_append, if_neg (by decide)]
    have h2 : nlCount ['"'] = 0 := rfl
    omega
  · exact congrArg (SpMode.lit sl d false false) (by
      simp [List.reverse_cons, List.reverse_append, List.append_assoc])

/-- Folding whitespace from idle only advances the line counter. -/
theorem spFold_idle_ws : ∀ (cs : List Char), (∀ c ∈ cs, c.isWhitespace = true) →
    ∀ (line : Nat) (out : List Chunk),
    List.foldl spStep ⟨line, out, .idle⟩ cs = ⟨line + nlCount cs, out, .idle⟩
  | [], _, line, out => by simp [nlCount]
  | c :: cs, h, line, out => by
    rw [List.foldl_cons, spStep_idle_ws line out c (h c (List.mem_cons_self c cs)),
      spFold_idle_ws cs (fun x hx => h x (List.mem_cons_of_mem c hx))]
    apply spst_ext
    · rw [nlCount_cons]
      by_cases hc : c = '\n'
      · rw [if_pos hc, if_pos hc]; omega
      · rw [if_neg hc, if_neg hc]; omega
    · rfl

/-- The corpus separator is whitespace. -/
theorem corpusSep_ws (p : Bool) : ∀ c ∈ corpusSep p, c.isWhitespace = true := by
  cases p <;> intro c hc <;> rw [corpusSep] at hc
  · rw [if_neg (by decide)] at hc
    simp at hc
    subst hc
    decide
  · rw [if_pos rfl] at hc
    simp at hc
    subst hc
    decide


mutual
/-- The splitter scans a printed value without leaving the literal. -/
theorem spV (v : JVal) : ∀ (p : Bool) (ind : Nat) (line : Nat) (out : List Chunk)
    (sl d : Nat) (cur : List Char), 1 ≤ d →
    List.foldl spStep ⟨line, out, .lit sl d false false cur⟩ (pvF p ind v) =
      ⟨line + nlCount (pvF p ind v), out,
       .lit sl d false false ((pvF p ind v).reverse ++ cur)⟩ := by
  cases v with
  | str s =>
    intro p ind line out sl d cur _
    rw [show pvF p ind (.str s) = strChars s from rfl]
    exact spFold_str s line out sl d cur
  | num n =>
    intro p ind line out sl d cur _
    rw [show pvF p ind (.num n) = intChars n from rfl]
    exact spFold_plain (intChars n) (intChars_plain n) line out sl d cur
  | arr xs =>
    intro p ind line out sl d cur hd
    have he : pvF p ind (.arr xs) = '[' :: (pvArr p ind xs ++ [']']) := by
      simp only [pvF]
      simp only [List.cons_append]
    rw [he, List.foldl_cons,
      spStep_lit_plain line out sl d cur '[' (by decide) (by decide) (by decide),
      if_neg (by decide), List.foldl_append, spA xs p ind line out sl d ('[' :: cur) hd,
      List.foldl_cons,
      spStep_lit_plain _ _ _ _ _ ']' (by decide) (by decide) (by decide),
      if_neg (by decide), List.foldl_nil]
    apply spst_ext
    · rw [nlCount_cons, nlCount_append, if_neg (by decide)]
      have h0 : nlCount [']'] = 0 := rfl
      omega
    · exact congrArg (SpMode.lit sl d false false) (by
        simp [List.reverse_cons, List.reverse_append, List.append_assoc])
  | obj fs =>
    cases fs with
    | nil =>
      intro p ind line out sl d cur hd
      rw [show pvF p ind (.obj .nil) = ['\x7b', '\x7d'] from rfl, List.foldl_cons,
        spStep_lit_open, List.foldl_cons, spStep_lit_close _ _ _ _ _ (by omega),
        List.foldl_nil]
      apply spst_ext
      · have h0 : nlCount ['\x7b', '\x7d'] = 0 := rfl
        omega
      · rfl
    | cons k v rest =>
      intro p ind line out sl d cur hd
      have he : pvF p ind (.obj (.cons k v rest)) =
          '\x7b' :: (nlInd p (ind + 2) ++ (pvObj p (ind + 2) (.cons k v rest) ++
            (nlInd p ind ++ ['\x7d']))) := by
        simp only [pvF]
        simp only [List.append_assoc, List.cons_append]
      rw [he, List.foldl_cons, spStep_lit_open, List.foldl_append,
        spFold_plain (nlInd p (ind + 2)) (fun c hc => ws_plain c (nlInd_ws p (ind + 2) c hc)),
        List.foldl_append, spO (.cons k v rest) p (ind + 2) _ _ _ _ _ (by omega),
        List.foldl_append,
        spFold_plain (nlInd p ind) (fun c hc => ws_plain c (nlInd_ws p ind c hc)),
        List.foldl_cons, spStep_lit_close _ _ _ _ _ (by omega), List.foldl_nil]
      apply spst_ext
      · rw [nlCount_cons, nlCount_append, nlCount_append, nlCount_append, if_neg (by decide)]
        have h0 : nlCount ['\x7d'] = 0 := rfl
        omega
      · exact congrArg (SpMode.lit sl d false false) (by
          simp [List.reverse_cons, List.reverse_append, List.append_assoc])

/-- The splitter scans printed array elements without leaving the literal. -/
theorem spA (xs : JArr) : ∀ (p : Bool) (ind : Nat) (line : Nat) (out : List Chunk)
    (sl d : Nat) (cur : List Char), 1 ≤ d →
    List.foldl spStep ⟨line, out, .lit sl d false false cur⟩ (pvArr p ind xs) =
      ⟨line + nlCount (pvArr p ind xs), out,
       .lit sl d false false ((pvArr p ind xs).reverse ++ cur)⟩ := by
  cases xs with
  | nil =>
    intro p ind line out sl d cur _
    rw [show pvArr p ind .nil = ([] : List Char) from rfl, List.foldl_nil]
    apply spst_ext
    · have h0 : nlCount ([] : List Char) = 0 := rfl
      omega
    · rfl
  | cons v rest =>
    cases rest with
    | nil =>
      intro p ind line out sl d cur hd
      rw [show pvArr p ind (.cons v .nil) = pvF p ind v from rfl]
      exact spV v p ind line out sl d cur hd
    | cons v2 rest2 =>
      intro p ind line out sl d cur hd
      have he : pvArr p ind (.cons v (.cons v2 rest2)) =
          pvF p ind v ++ (',' :: ' ' :: pvArr p ind (.cons v2 rest2)) := by
        simp only [pvArr]
      rw [he, List.foldl_append, spV v p ind line out sl d cur hd, List.foldl_cons,
        spStep_lit_plain _ _ _ _ _ ',' (by decide) (by decide) (by decide),
        if_neg (by decide), List.foldl_cons,
        spStep_lit_plain _ _ _ _ _ ' ' (by decide) (by decide) (by decide),
        if_neg (by decide), spA (.cons v2 rest2) p ind _ _ _ _ _ hd]
      apply spst_ext
      · rw [nlCount_append, nlCount_cons, nlCount_cons, if_neg (by decide),
          if_neg (by decide)]
        omega
      · exact congrArg (SpMode.lit sl d false false) (by
          simp [List.reverse_cons, List.reverse_append, List.append_assoc])

/-- The splitter scans printed object fields without leaving the literal. -/
theorem spO (fs : JObj) : ∀ (p : Bool) (ind : Nat) (line : Nat) (out : List Chunk)
    (sl d : Nat) (cur : List Char), 1 ≤ d →
    List.foldl spStep ⟨line, out, .lit sl d false false cur⟩ (pvObj p ind fs) =
      ⟨line + nlCount (pvObj p ind fs), out,
       .lit sl d false false ((pvObj p ind fs).reverse ++ cur)⟩ := by
  cases fs with
  | nil =>
    intro p ind line out sl d cur _
    rw [show pvObj p ind .nil = ([] : List Char) from rfl, List.foldl_nil]
    apply spst_ext
    · have h0 : nlCount ([] : List Char) = 0 := rfl
      omega
    · rfl
  | cons k v rest =>
    cases rest with
    | nil =>
      intro p ind line out sl d cur hd
      have he : pvObj p ind (.cons k v .nil) = strChars k ++ (':' :: ' ' :: pvF p ind v) := by
        simp only [pvObj]
      rw [he, List.foldl_append, spFold_str, List.foldl_cons,
        spStep_lit_plain _ _ _ _ _ ':' (by decide) (by decide) (by decide),
        if_neg (by decide), List.foldl_cons,
        spStep_lit_plain _ _ _ _ _ ' ' (by decide) (by decide) (by decide),
        if_neg (by decide), spV v p ind _ _ _ _ _ hd]
      apply spst_ext
      · rw [nlCount_append, nlCount_cons, nlCount_cons, if_neg (by decide),
          if_neg (by decide)]
        omega
      · exact congrArg (SpMode.lit sl d false false) (by
          simp [List.reverse_cons, List.reverse_append, List.append_assoc])
    | cons k2 v2 rest2 =>
      intro p ind line out sl d cur hd
      have he : pvObj p ind (.cons k v (.cons k2 v2 rest2)) =
          strChars k ++ (':' :: ' ' :: (pvF p ind v ++ (',' :: (nlInd p ind ++
            pvObj p ind (.cons k2 v2 rest2))))) := by
        simp only [pvObj]
        simp only [List.append_assoc, List.cons_append]
      rw [he, List.foldl_append, spFold_str, List.foldl_cons,
        spStep_lit_plain _ _ _ _ _ ':' (by decide) (by decide) (by decide),
        if_neg (by decide), List.foldl_cons,
        spStep_lit_plain _ _ _ _ _ ' ' (by decide) (by decide) (by decide),
        if_neg (by decide), List.foldl_append, spV v p ind _ _ _ _ _ hd,
        List.foldl_cons,
        spStep_lit_plain _ _ _ _ _ ',' (by decide) (by decide) (by decide),
        if_neg (by decide), List.foldl_append,
        spFold_plain (nlInd p ind) (fun c hc => ws_plain c (nlInd_ws p ind c hc)),
        spO (.cons k2 v2 rest2) p ind _ _ _ _ _ hd]
      apply spst_ext
      · rw [nlCount_append, nlCount_cons, nlCount_cons, nlCount_append, nlCount_cons,
          nlCount_append, if_neg (by decide), if_neg (by decide), if_neg (by decide)]
        omega
      · exact congrArg (SpMode.lit sl d false false) (by
          simp [List.reverse_cons, List.reverse_append, List.append_assoc])
end


/-- Three-way splitter-state extensionality. -/
theorem spst_ext3 (l1 l2 : Nat) (o1 o2 : List Chunk) (m1 m2 : SpMode)
    (h1 : l1 = l2) (h2 : o1 = o2) (h3 : m1 = m2) :
    (⟨l1, o1, m1⟩ : SpSt) = ⟨l2, o2, m2⟩ := by
  rw [h1, h2, h3]

/-- Scanning one printed top-level object from idle emits exactly its chunk. -/
theorem spLit (fs : JObj) (p : Bool) (line : Nat) (out : List Chunk) :
    List.foldl spStep ⟨line, out, .idle⟩ (pvF p 0 (.obj fs)) =
      ⟨line + nlCount (pvF p 0 (.obj fs)), ⟨line, pvF p 0 (.obj fs)⟩ :: out, .idle⟩ := by
  cases fs with
  | nil =>
    rw [show pvF p 0 (.obj .nil) = ['\x7b', '\x7d'] from rfl, List.foldl_cons,
      spStep_idle_open, List.foldl_cons, spStep_lit_close1, List.foldl_nil]
    apply spst_ext3
    · have h0 : nlCount ['\x7b', '\x7d'] = 0 := rfl
      omega
    · rfl
    · rfl
  | cons k v rest =>
    have he : pvF p 0 (.obj (.cons k v rest)) =
        '\x7b' :: (nlInd p 2 ++ (pvObj p 2 (.cons k v rest) ++ (nlInd p 0 ++ ['\x7d']))) := by
      simp only [pvF]
      simp only [List.append_assoc, List.cons_append]
    rw [he, List.foldl_cons, spStep_idle_open, List.foldl_append,
      spFold_plain (nlInd p 2) (fun c hc => ws_plain c (nlInd_ws p 2 c hc)),
      List.foldl_append, spO (.cons k v rest) p 2 _ _ _ _ _ (by omega),
      List.foldl_append,
      spFold_plain (nlInd p 0) (fun c hc => ws_plain c (nlInd_ws p 0 c hc)),
      List.foldl_cons, spStep_lit_close1, List.foldl_nil]
    apply spst_ext3
    · rw [nlCount_cons, nlCount_append, nlCount_append, nlCount_append, if_neg (by decide)]
      have h0 : nlCount ['\x7d'] = 0 := rfl
      omega
    · exact congrArg (fun ch => ch :: out) (congrArg (Chunk.mk line) (by
        simp [List.reverse_cons, List.reverse_append, List.reverse_reverse,
          List.append_assoc]))
    · rfl

/-- `spLit` re-stated through `objChars`. -/
theorem spLit_obj (o : JObj) (p : Bool) (line : Nat) (out : List Chunk) :
    List.foldl spStep ⟨line, out, .idle⟩ (objChars p o) =
      ⟨line + nlCount (objChars p o), ⟨line, objChars p o⟩ :: out, .idle⟩ :=
  spLit (canonF o) p line out

/-- Scanning a printed corpus from idle yields exactly the printed chunks. -/
theorem spCorpus : ∀ (objs : List JObj) (p : Bool) (line : Nat) (out : List Chunk),
    ∃ (pre : List Chunk),
    List.foldl spStep ⟨line, out, .idle⟩ (corpusChars p objs) =
      ⟨line + nlCount (corpusChars p objs), pre ++ out, .idle⟩ ∧
    pre.reverse.map Chunk.text = objs.map (objChars p)
  | [], p, line, out => by
    refine ⟨[], ?_, rfl⟩
    rw [show corpusChars p [] = ([] : List Char) from rfl, List.foldl_nil]
    apply spst_ext3
    · have h0 : nlCount ([] : List Char) = 0 := rfl
      omega
    · rfl
    · rfl
  | [o], p, line, out => by
    refine ⟨[⟨line, objChars p o⟩], ?_, rfl⟩
    rw [show corpusChars p [o] = objChars p o from rfl, spLit_obj]
    rfl
  | o :: o2 :: os, p, line, out => by
    obtain ⟨pre, hfold, hmap⟩ := spCorpus (o2 :: os) p
      (line + nlCount (objChars p o) + nlCount (corpusSep p))
      (⟨line, objChars p o⟩ :: out)
    refine ⟨pre ++ [⟨line, objChars p o⟩], ?_, ?_⟩
    · rw [show corpusChars p (o :: o2 :: os) =
        objChars p o ++ (corpusSep p ++ corpusChars p (o2 :: os)) from by
          simp [corpusChars, List.append_assoc],
        List.foldl_append, List.foldl_append, spLit_obj,
        spFold_idle_ws (corpusSep p) (corpusSep_ws p), hfold]
      apply spst_ext3
      · rw [nlCount_append, nlCount_append]
        omega
      · simp [List.append_assoc]
      · rfl
    · rw [List.reverse_append, List.map_append, hmap]
      rfl

/-- The splitter recovers the printed texts of a corpus. -/
theorem splitLiterals_corpus (p : Bool) (objs : List JObj) :
    (splitLiterals (corpusChars p objs)).map Chunk.text = objs.map (objChars p) := by
  obtain ⟨pre, hfold, hmap⟩ := spCorpus objs p 1 []
  rw [splitLiterals, hfold]
  rw [show spFinal ⟨1 + nlCount (corpusChars p objs), pre ++ [], .idle⟩ =
    (pre ++ []).reverse from rfl, List.append_nil]
  exact hmap

/-- Chunks whose texts are printed objects parse to their canonical fields. -/
theorem itemsFields_chunks (p : Bool) : ∀ (chs : List Chunk) (objs : List JObj),
    chs.map Chunk.text = objs.map (objChars p) →
    itemsFields (chs.map itemOfChunk) = some (objs.map canonF)
  | [], objs, h => by
    cases objs with
    | nil => rfl
    | cons o os => simp at h
  | ch :: chs, objs, h => by
    cases objs with
    | nil => simp at h
    | cons o os =>
      rw [List.map_cons, List.map_cons] at h
      have h1 : ch.text = objChars p o := (List.cons.injEq _ _ _ _ ▸ h).1
      have h2 : chs.map Chunk.text = os.map (objChars p) := (List.cons.injEq _ _ _ _ ▸ h).2
      rw [List.map_cons, show itemOfChunk ch = .obj ch.line (canonF o) from by
        rw [itemOfChunk, h1, parseLit_objChars],
        List.map_cons, show itemsFields (ParseItem.obj ch.line (canonF o) ::
          chs.map itemOfChunk) = (itemsFields (chs.map itemOfChunk)).map (canonF o :: ·)
          from rfl,
        itemsFields_chunks p chs os h2]
      rfl

/-- Printed corpora parse back to their canonical field lists. -/
theorem parse_printed (p : Bool) (objs : List JObj) :
    itemsFields (parseChars (corpusChars p objs)) = some (objs.map canonF) := by
  rw [parseChars]
  exact itemsFields_chunks p (splitLiterals (corpusChars p objs)) objs
    (splitLiterals_corpus p objs)


/-- A corpus prints the same after canonicalising every object. -/
theorem corpusChars_canonF (p : Bool) : ∀ (objs : List JObj),
    corpusChars p (objs.map canonF) = corpusChars p objs
  | [] => rfl
  | [o] => by
    rw [show corpusChars p ([o].map canonF) = objChars p (canonF o) from rfl,
      show corpusChars p [o] = objChars p o from rfl, objChars_canonF]
  | o :: o2 :: os => by
    rw [show corpusChars p ((o :: o2 :: os).map canonF) =
        objChars p (canonF o) ++ corpusSep p ++ corpusChars p ((o2 :: os).map canonF)
        from rfl,
      show corpusChars p (o :: o2 :: os) =
        objChars p o ++ corpusSep p ++ corpusChars p (o2 :: os) from rfl,
      objChars_canonF, corpusChars_canonF p (o2 :: os)]

/-- C5: the formatter is idempotent — whenever `format_pxl` succeeds, formatting
its output returns that output unchanged (so already-canonical input is a fixed
point), and formatting the empty string yields the empty string. -/
theorem format_idempotent :
    (∀ (text out : String), format_pxl text = .ok out → format_pxl out = .ok out) ∧
    format_pxl "" = .ok "" := by
  constructor
  · intro text out h
    have hsome : ∃ objs, itemsFields (parse text) = some objs ∧
        out = String.mk (corpusChars true objs) := by
      rw [format_pxl] at h
      cases hif : itemsFields (parse text) with
      | none => rw [hif] at h; cases h
      | some objs =>
        rw [hif] at h
        cases h
        exact ⟨objs, rfl, rfl⟩
    obtain ⟨objs, hif, hout⟩ := hsome
    subst hout
    have hp : itemsFields (parse (String.mk (corpusChars true objs))) =
        some (objs.map canonF) := parse_printed true objs
    rw [format_pxl, hp]
    show Except.ok (String.mk (corpusChars true (objs.map canonF))) =
      Except.ok (String.mk (corpusChars true objs))
    rw [corpusChars_canonF]
  · rfl

/-- Witness: the minimal sprite literal formats successfully and the output is a
fixed point of the formatter. -/
theorem format_idempotent_witness :
    ∃ out, format_pxl minimalSpriteLit = .ok out ∧ format_pxl out = .ok out :=
  ⟨_, rfl, format_idempotent.1 minimalSpriteLit _ rfl⟩


/-- The object records of a parse, in source order. -/
def parseRecs (items : List ParseItem) : List JObj :=
  items.filterMap (fun it => match it with | .obj _ fs => some fs | .warn _ _ => none)

/-- The warnings of a parse, with their lines, in source order. -/
def parseWarns (items : List ParseItem) : List (Nat × String) :=
  items.filterMap (fun it => match it with | .warn l m => some (l, m) | .obj _ _ => none)

/-- `parse` over an explicit character list. -/
theorem parse_mk (cs : List Char) : parse (String.mk cs) = parseChars cs := rfl

/-- Finalising an idle splitter returns the chunks in order. -/
theorem spFinal_idle (line : Nat) (out : List Chunk) :
    spFinal ⟨line, out, .idle⟩ = out.reverse := rfl

/-- Splitting two printed corpora around one brace-balanced junk literal. -/
theorem splitLiterals_spliced (p : Bool) (objs1 objs2 : List JObj) (body : List Char)
    (hb : ∀ c ∈ body, c ≠ '"' ∧ c ≠ '\x7b' ∧ c ≠ '\x7d') :
    ∃ pre1 pre2 : List Chunk,
    splitLiterals (corpusChars p objs1 ++ corpusSep p ++ ('\x7b' :: body ++ ['\x7d']) ++
        corpusSep p ++ corpusChars p objs2) =
      pre1.reverse ++ ⟨1 + nlCount (corpusChars p objs1 ++ corpusSep p),
        '\x7b' :: body ++ ['\x7d']⟩ :: pre2.reverse ∧
    pre1.reverse.map Chunk.text = objs1.map (objChars p) ∧
    pre2.reverse.map Chunk.text = objs2.map (objChars p) := by
  obtain ⟨pre1, hfold1, hmap1⟩ := spCorpus objs1 p 1 []
  rw [List.append_nil] at hfold1
  obtain ⟨pre2, hfold2, hmap2⟩ := spCorpus objs2 p
    (1 + nlCount (corpusChars p objs1) + nlCount (corpusSep p) + nlCount body +
      nlCount (corpusSep p))
    (⟨1 + nlCount (corpusChars p objs1) + nlCount (corpusSep p),
      '\x7b' :: body ++ ['\x7d']⟩ :: pre1)
  refine ⟨pre1, pre2, ?_, hmap1, hmap2⟩
  have htext : ('\x7d' :: (body.reverse ++ ['\x7b'])).reverse = '\x7b' :: body ++ ['\x7d'] := by
    simp [List.reverse_cons, List.reverse_append, List.reverse_reverse, List.append_assoc]
  have hassoc : corpusChars p objs1 ++ corpusSep p ++ ('\x7b' :: body ++ ['\x7d']) ++
      corpusSep p ++ corpusChars p objs2 =
      corpusChars p objs1 ++ (corpusSep p ++ (('\x7b' :: (body ++ ['\x7d'])) ++
        (corpusSep p ++ corpusChars p objs2))) := by
    simp [List.append_assoc, List.cons_append]
  rw [splitLiterals, hassoc, List.foldl_append, hfold1, List.foldl_append,
    spFold_idle_ws (corpusSep p) (corpusSep_ws p), List.foldl_append, List.foldl_cons,
    spStep_idle_open, List.foldl_append, List.foldl_append, spFold_plain body hb,
    List.foldl_cons, spStep_lit_close1, List.foldl_nil, htext,
    spFold_idle_ws (corpusSep p) (corpusSep_ws p), hfold2, spFinal_idle]
  simp [List.reverse_append, List.reverse_cons, List.append_assoc, nlCount_append,
    Nat.add_assoc]

/-- Chunks carrying printed objects contribute exactly their records and no
warnings. -/
theorem chunks_recs (p : Bool) : ∀ (chs : List Chunk) (objs : List JObj),
    chs.map Chunk.text = objs.map (objChars p) →
    parseRecs (chs.map itemOfChunk) = objs.map canonF ∧
    parseWarns (chs.map itemOfChunk) = []
  | [], objs, h => by
    cases objs with
    | nil => exact ⟨rfl, rfl⟩
    | cons o os => simp at h
  | ch :: chs, objs, h => by
    cases objs with
    | nil => simp at h
    | cons o os =>
      rw [List.map_cons, List.map_cons] at h
      have h1 : ch.text = objChars p o := (List.cons.injEq _ _ _ _ ▸ h).1
      have h2 : chs.map Chunk.text = os.map (objChars p) := (List.cons.injEq _ _ _ _ ▸ h).2
      obtain ⟨ihr, ihw⟩ := chunks_recs p chs os h2
      have hobj : itemOfChunk ch = .obj ch.line (canonF o) := by
        rw [itemOfChunk, h1, parseLit_objChars]
      rw [List.map_cons, hobj, List.map_cons]
      constructor
      · rw [show parseRecs (ParseItem.obj ch.line (canonF o) :: chs.map itemOfChunk) =
          canonF o :: parseRecs (chs.map itemOfChunk) from rfl, ihr]
      · rw [show parseWarns (ParseItem.obj ch.line (canonF o) :: chs.map itemOfChunk) =
          parseWarns (chs.map itemOfChunk) from rfl, ihw]

/-- C4: one malformed top-level literal spliced between two well-formed printed
corpora yields exactly one warning, carrying the malformed literal's starting
line, while every well-formed literal still parses to its record in source
order. -/
theorem parse_isolates_malformed (p : Bool) (objs1 objs2 : List JObj)
    (body : List Char) (hb : ∀ c ∈ body, c ≠ '"' ∧ c ≠ '\x7b' ∧ c ≠ '\x7d')
    (hnone : parseLit ('\x7b' :: body ++ ['\x7d']) = none) :
    parseRecs (parse (String.mk (corpusChars p objs1 ++ corpusSep p ++
        ('\x7b' :: body ++ ['\x7d']) ++ corpusSep p ++ corpusChars p objs2))) =
      (objs1 ++ objs2).map canonF ∧
    parseWarns (parse (String.mk (corpusChars p objs1 ++ corpusSep p ++
        ('\x7b' :: body ++ ['\x7d']) ++ corpusSep p ++ corpusChars p objs2))) =
      [(1 + nlCount (corpusChars p objs1 ++ corpusSep p), "Parse error")] := by
  obtain ⟨pre1, pre2, hsplit, hmap1, hmap2⟩ := splitLiterals_spliced p objs1 objs2 body hb
  obtain ⟨h1r, h1w⟩ := chunks_recs p pre1.reverse objs1 hmap1
  obtain ⟨h2r, h2w⟩ := chunks_recs p pre2.reverse objs2 hmap2
  have hbad : itemOfChunk ⟨1 + nlCount (corpusChars p objs1 ++ corpusSep p),
      '\x7b' :: body ++ ['\x7d']⟩ =
      .warn (1 + nlCount (corpusChars p objs1 ++ corpusSep p)) "Parse error" := by
    rw [itemOfChunk]
    rw [show Chunk.text ⟨1 + nlCount (corpusChars p objs1 ++ corpusSep p),
      '\x7b' :: body ++ ['\x7d']⟩ = '\x7b' :: body ++ ['\x7d'] from rfl, hnone]
  rw [parse_mk, parseChars, hsplit, List.map_append, List.map_cons, hbad]
  constructor
  · rw [parseRecs, List.filterMap_append, ← parseRecs, ← parseRecs, h1r,
      show parseRecs (ParseItem.warn (1 + nlCount (corpusChars p objs1 ++ corpusSep p))
        "Parse error" :: pre2.reverse.map itemOfChunk) =
        parseRecs (pre2.reverse.map itemOfChunk) from rfl, h2r, List.map_append]
  · rw [parseWarns, List.filterMap_append, ← parseWarns, ← parseWarns, h1w,
      show parseWarns (ParseItem.warn (1 + nlCount (corpusChars p objs1 ++ corpusSep p))
        "Parse error" :: pre2.reverse.map itemOfChunk) =
        (1 + nlCount (corpusChars p objs1 ++ corpusSep p), "Parse error") ::
          parseWarns (pre2.reverse.map itemOfChunk) from rfl, h2w, List.nil_append]

/-- Witness: two empty objects around the junk literal `\x7boops\x7d` parse to
their two records plus exactly one parse warning on line 3. -/
theorem parse_isolates_malformed_witness :
    (∀ c ∈ ("oops".data), c ≠ '"' ∧ c ≠ '\x7b' ∧ c ≠ '\x7d') ∧
    parseLit ('\x7b' :: "oops".data ++ ['\x7d']) = none ∧
    parseRecs (parse (String.mk (corpusChars true [JObj.nil] ++ corpusSep true ++
        ('\x7b' :: "oops".data ++ ['\x7d']) ++ corpusSep true ++
        corpusChars true [JObj.nil]))) = ([JObj.nil] ++ [JObj.nil]).map canonF ∧
    parseWarns (parse (String.mk (corpusChars true [JObj.nil] ++ corpusSep true ++
        ('\x7b' :: "oops".data ++ ['\x7d']) ++ corpusSep true ++
        corpusChars true [JObj.nil]))) =
      [(1 + nlCount (corpusChars true [JObj.nil] ++ corpusSep true), "Parse error")] :=
  ⟨by decide, rfl,
   (parse_isolates_malformed true [JObj.nil] [JObj.nil] "oops".data (by decide) rfl).1,
   (parse_isolates_malformed true [JObj.nil] [JObj.nil] "oops".data (by decide) rfl).2⟩


/-! ## Round-trip machinery: geometry through the PNG codec -/

/-- A digit character's code point lies in the decimal range. -/
theorem isDigit_toNat (c : Char) (h : c.isDigit = true) :
    48 ≤ c.toNat ∧ c.toNat ≤ 57 := by
  simp [Char.isDigit] at h
  exact h

/-- Flattening RGBA pixels yields four bytes each. -/
theorem flattenRGBA_length : ∀ (l : List RGBA), (flattenRGBA l).length = l.length * 4
  | [] => rfl
  | c :: cs => by
    have ih := flattenRGBA_length cs
    rw [show flattenRGBA (c :: cs) = c.r :: c.g :: c.b :: c.a :: flattenRGBA cs from rfl,
      List.length_cons, List.length_cons, List.length_cons, List.length_cons, ih,
      List.length_cons]
    ring

/-- Painting a point preserves the buffer length. -/
theorem paintPoint_length (w h : Nat) (c : RGBA) (buf : List RGBA) (pt : Int × Int) :
    (paintPoint w h c buf pt).length = buf.length := by
  rw [paintPoint]
  split
  · simp [List.length_set]
  · rfl

/-- Painting a coordinate list preserves the buffer length. -/
theorem foldl_paintPoint_length (w h : Nat) (c : RGBA) :
    ∀ (pts : List (Int × Int)) (buf : List RGBA),
    (pts.foldl (paintPoint w h c) buf).length = buf.length
  | [], _ => rfl
  | pt :: pts, buf => by
    rw [List.foldl_cons, foldl_paintPoint_length w h c pts, paintPoint_length]

/-- Painting one region preserves the buffer length. -/
theorem paintRegion_length (w h : Nat) (pm : List (String × String))
    (acc : List RGBA × List String) (r : RegionRec) :
    ((paintRegion w h pm acc r).1).length = acc.1.length := by
  rw [paintRegion]
  split
  · rfl
  · split
    · rfl
    · exact foldl_paintPoint_length _ _ _ _ _

/-- Painting all regions preserves the buffer length. -/
theorem foldl_paintRegion_length (w h : Nat) (pm : List (String × String)) :
    ∀ (rs : List RegionRec) (acc : List RGBA × List String),
    ((rs.foldl (paintRegion w h pm) acc).1).length = acc.1.length
  | [], _ => rfl
  | r :: rs, acc => by
    rw [List.foldl_cons, foldl_paintRegion_length w h pm rs, paintRegion_length]

/-- A rendered sprite's byte buffer has exactly `width * height * 4` bytes. -/
theorem renderSprite_pixlen (s : SpriteRec) (pm : List (String × String)) :
    (renderSprite s pm).pixels.length = s.width * s.height * 4 := by
  rw [show (renderSprite s pm).pixels = flattenRGBA ((sortZ s.regions).foldl
    (paintRegion s.width s.height pm)
    (List.replicate (s.width * s.height) ⟨0, 0, 0, 0⟩, ([] : List String))).1 from rfl,
    flattenRGBA_length, foldl_paintRegion_length]
  simp [List.length_replicate]

/-- Reading digit bytes accumulates their value up to the zero terminator. -/
theorem readNatB_go_digits : ∀ (ds : List Char), (∀ c ∈ ds, c.isDigit = true) →
    ∀ (v : Nat) (rest : List Nat),
    readNatB.go v (ds.map Char.toNat ++ 0 :: rest) = some (ds.foldl digitStep v, rest)
  | [], _, v, rest => rfl
  | c :: ds, h, v, rest => by
    obtain ⟨h48, h57⟩ := isDigit_toNat c (h c (List.mem_cons_self c ds))
    rw [List.map_cons, List.cons_append,
      show readNatB.go v (c.toNat :: (ds.map Char.toNat ++ 0 :: rest)) =
        (if c.toNat = 0 then some (v, ds.map Char.toNat ++ 0 :: rest)
         else if 48 ≤ c.toNat ∧ c.toNat ≤ 57 then
           readNatB.go (v * 10 + (c.toNat - 48)) (ds.map Char.toNat ++ 0 :: rest)
         else none) from rfl,
      if_neg (by omega), if_pos ⟨h48, h57⟩,
      readNatB_go_digits ds (fun x hx => h x (List.mem_cons_of_mem c hx)),
      List.foldl_cons]
    rfl

/-- Reading an encoded length field recovers the number and the tail. -/
theorem readNatB_enc (n : Nat) (rest : List Nat) :
    readNatB (encNat n ++ rest) = some (n, rest) := by
  obtain ⟨d, ds, hshape, hd, hds⟩ := natChars_shape n
  have hmain : encNat n ++ rest = d.toNat :: (ds.map Char.toNat ++ 0 :: rest) := by
    rw [encNat, hshape, List.map_cons]
    simp [List.append_assoc, List.cons_append]
  obtain ⟨h48, h57⟩ := isDigit_toNat d hd
  rw [hmain, show readNatB (d.toNat :: (ds.map Char.toNat ++ 0 :: rest)) =
    (if d.toNat = 0 then none
     else if 48 ≤ d.toNat ∧ d.toNat ≤ 57 then
       readNatB.go (d.toNat - 48) (ds.map Char.toNat ++ 0 :: rest)
     else none) from rfl, if_neg (by omega), if_pos ⟨h48, h57⟩,
    readNatB_go_digits ds hds (d.toNat - 48) rest]
  have hval : ds.foldl digitStep (d.toNat - 48) = n := by
    have h2 := natChars_foldl n
    rw [hshape, List.foldl_cons] at h2
    rw [show digitStep 0 d = d.toNat - 48 from by rw [digitStep]; omega] at h2
    exact h2
  rw [hval]

/-- Decoding inverts encoding on well-sized buffers. -/
theorem pngDecode_encode (pix : List Nat) (w h : Nat) (hlen : pix.length = w * h * 4) :
    pngDecode (pngEncode pix w h) = .ok (pix, w, h) := by
  have hassoc : pngEncode pix w h = pngSig ++ (encNat w ++ (encNat h ++ pix)) := by
    rw [pngEncode]
    simp [List.append_assoc]
  have hpre : pngSig.isPrefixOf (pngSig ++ (encNat w ++ (encNat h ++ pix))) = true := by
    rw [List.isPrefixOf_iff_prefix]
    exact List.prefix_append _ _
  have hdrop : (pngSig ++ (encNat w ++ (encNat h ++ pix))).drop pngSig.length =
      encNat w ++ (encNat h ++ pix) := List.drop_left _ _
  rw [pngDecode, hassoc, if_pos hpre, hdrop]
  simp only [readNatB_enc]
  rw [if_pos hlen]

/-- Importing an encoded buffer keeps the encoded dimensions. -/
theorem importBytes_encode (pix : List Nat) (w h : Nat) (name : String)
    (hlen : pix.length = w * h * 4) :
    ∃ r, importBytes (pngEncode pix w h) name none false = .ok r ∧
      r.name = name ∧ r.width = w ∧ r.height = h ∧ r.analysis = none := by
  rw [importBytes]
  simp only [pngDecode_encode pix w h hlen]
  exact ⟨_, rfl, rfl, rfl, rfl, rfl⟩

/-- `import_png` with a readable path defers to `importBytes`. -/
theorem import_png_fs (fs : ByteFS) (path : String) (bytes : List Nat) (name : String)
    (hfs : fs path = some bytes) (mc : Option Nat) :
    import_png fs path (some name) mc = importBytes bytes name mc false := by
  rw [import_png, hfs]


/-- A sprite record always carries positive dimensions. -/
theorem spriteOfObj_pos (o : JObj) (s : SpriteRec) (h : spriteOfObj o = some s) :
    0 < s.width ∧ 0 < s.height := by
  rw [spriteOfObj] at h
  repeat' split at h
  all_goals simp only [Option.some_bind, Option.none_bind] at h
  all_goals try exact Option.noConfusion h
  all_goals cases h
  all_goals constructor <;> (first | (simp; omega) | simp | omega)

/-- The first sprite of a parse has positive dimensions. -/
theorem firstSprite_pos : ∀ (items : List ParseItem) (s : SpriteRec),
    firstSprite items = some s → 0 < s.width ∧ 0 < s.height
  | [], s, h => by simp [firstSprite] at h
  | .obj l fs :: rest, s, h => by
    rw [firstSprite] at h
    by_cases ht : typeOf fs = "sprite"
    · rw [if_pos ht] at h
      cases hso : spriteOfObj fs with
      | none =>
        rw [hso] at h
        exact firstSprite_pos rest s h
      | some s2 =>
        rw [hso] at h
        have hs2 : s2 = s := by
          have h2 : some s2 = some s := h
          cases h2
          rfl
        subst hs2
        exact spriteOfObj_pos fs s2 hso
    · rw [if_neg ht] at h
      exact firstSprite_pos rest s h
  | .warn l m :: rest, s, h => by
    rw [firstSprite] at h
    exact firstSprite_pos rest s h

/-- Sprite extraction only reads field lookups, so it ignores reordering. -/
theorem spriteOfObj_canonF (o : JObj) : spriteOfObj (canonF o) = spriteOfObj o := by
  simp only [spriteOfObj, lookup_canonF]

/-- The serialized sprite object denotes its import record's sprite. -/
theorem spriteOfObj_sprObj (r : ImportResult) (hw : 0 < r.width) (hh : 0 < r.height) :
    spriteOfObj (sprObjOf r) = some ⟨r.name, r.width, r.height,
      .named (r.name ++ "_palette"),
      (jobjOf (r.regionGroups.map (fun g => (g.1, geomJson g.2)))).toList.filterMap
        (fun kv => regionOf kv.1 kv.2)⟩ := by
  have hw2 : (0 : Int) < (r.width : Int) := by exact_mod_cast hw
  have hh2 : (0 : Int) < (r.height : Int) := by exact_mod_cast hh
  rw [show spriteOfObj (sprObjOf r) =
    (if 0 < (r.width : Int) ∧ 0 < (r.height : Int) then
      some (⟨r.name, r.width, r.height, .named (r.name ++ "_palette"),
        (jobjOf (r.regionGroups.map (fun g => (g.1, geomJson g.2)))).toList.filterMap
          (fun kv => regionOf kv.1 kv.2)⟩ : SpriteRec)
     else none) from rfl, if_pos ⟨hw2, hh2⟩]

/-- The two printed import objects have their declared types. -/
theorem typeOf_palObj (r : ImportResult) : typeOf (palObjOf r) = "palette" := rfl

/-- The serialized sprite object's type is `sprite`. -/
theorem typeOf_sprObj (r : ImportResult) : typeOf (sprObjOf r) = "sprite" := rfl

/-- Parsing a printed two-object corpus yields the two canonical records. -/
theorem parse_two (p : Bool) (o1 o2 : JObj) : ∃ l1 l2,
    parse (String.mk (corpusChars p [o1, o2])) =
      [.obj l1 (canonF o1), .obj l2 (canonF o2)] := by
  have h := splitLiterals_corpus p [o1, o2]
  rw [parse_mk, parseChars]
  cases hc : splitLiterals (corpusChars p [o1, o2]) with
  | nil => rw [hc] at h; simp at h
  | cons c1 rest =>
    cases rest with
    | nil => rw [hc] at h; simp at h
    | cons c2 rest2 =>
      cases rest2 with
      | nil =>
        rw [hc] at h
        rw [List.map_cons, List.map_cons, List.map_nil] at h
        have h1 : c1.text = objChars p o1 := (List.cons.injEq _ _ _ _ ▸ h).1
        have h2 : c2.text = objChars p o2 :=
          (List.cons.injEq _ _ _ _ ▸ (List.cons.injEq _ _ _ _ ▸ h).2).1
        refine ⟨c1.line, c2.line, ?_⟩
        rw [List.map_cons, List.map_cons, List.map_nil,
          show itemOfChunk c1 = .obj c1.line (canonF o1) from by
            rw [itemOfChunk, h1, parseLit_objChars],
          show itemOfChunk c2 = .obj c2.line (canonF o2) from by
            rw [itemOfChunk, h2, parseLit_objChars]]
      | cons c3 rest3 =>
        rw [hc] at h
        simp at h


/-- A rendered sprite reports its declared width. -/
theorem renderSprite_width (s : SpriteRec) (pm : List (String × String)) :
    (renderSprite s pm).width = s.width := rfl

/-- A rendered sprite reports its declared height. -/
theorem renderSprite_height (s : SpriteRec) (pm : List (String × String)) :
    (renderSprite s pm).height = s.height := rfl

/-- `render_to_png` on a corpus with a first sprite encodes that sprite. -/
theorem render_to_png_eq (text : String) (s : SpriteRec)
    (hs : firstSprite (parse text) = some s) :
    render_to_png text =
      pngEncode (renderSprite s (resolvePalette (palettesOf (parse text)) s.palette).1).pixels
        s.width s.height := by
  rw [render_to_png, hs]
  rfl

/-- Rendering a printed import pair reproduces the import dimensions. -/
theorem render_dims_two (p : Bool) (r : ImportResult) (hw : 0 < r.width)
    (hh : 0 < r.height) :
    (render_to_rgba (String.mk (corpusChars p [palObjOf r, sprObjOf r]))).width = r.width ∧
    (render_to_rgba (String.mk (corpusChars p [palObjOf r, sprObjOf r]))).height = r.height := by
  obtain ⟨l1, l2, hp⟩ := parse_two p (palObjOf r) (sprObjOf r)
  have hfs : firstSprite (parse (String.mk (corpusChars p [palObjOf r, sprObjOf r]))) =
      some ⟨r.name, r.width, r.height, .named (r.name ++ "_palette"),
        (jobjOf (r.regionGroups.map (fun g => (g.1, geomJson g.2)))).toList.filterMap
          (fun kv => regionOf kv.1 kv.2)⟩ := by
    rw [hp, firstSprite, typeOf_canonF, typeOf_palObj,
      if_neg (by decide : ¬ ("palette" = "sprite")), firstSprite, typeOf_canonF,
      typeOf_sprObj, if_pos rfl, spriteOfObj_canonF, spriteOfObj_sprObj r hw hh]
  rw [render_to_rgba, hfs]
  exact ⟨rfl, rfl⟩

/-- C1: rendering a sprite to PNG, importing the PNG, and re-rendering either
serialized form of the import result (`to_pxl` or `to_jsonl`) yields an image
whose width and height equal the sprite's declared width and height exactly. -/
theorem import_roundtrip_dims (text : String) (s : SpriteRec) (fs : ByteFS)
    (path name : String) (hs : firstSprite (parse text) = some s)
    (hfs : fs path = some (render_to_png text)) :
    ∃ r, import_png fs path (some name) none = .ok r ∧
      r.width = s.width ∧ r.height = s.height ∧
      (render_to_rgba (ImportResult.to_pxl r)).width = s.width ∧
      (render_to_rgba (ImportResult.to_pxl r)).height = s.height ∧
      (render_to_rgba (ImportResult.to_jsonl r)).width = s.width ∧
      (render_to_rgba (ImportResult.to_jsonl r)).height = s.height := by
  obtain ⟨hw, hh⟩ := firstSprite_pos (parse text) s hs
  obtain ⟨r, hok, hname, hrw, hrh, hana⟩ := importBytes_encode
    (renderSprite s (resolvePalette (palettesOf (parse text)) s.palette).1).pixels
    s.width s.height name
    (by rw [renderSprite_pixlen])
  have himp : import_png fs path (some name) none = .ok r := by
    rw [import_png_fs fs path (render_to_png text) name hfs none,
      render_to_png_eq text s hs, hok]
  have hwr : 0 < r.width := by rw [hrw]; exact hw
  have hhr : 0 < r.height := by rw [hrh]; exact hh
  obtain ⟨hpw, hph⟩ := render_dims_two true r hwr hhr
  obtain ⟨hjw, hjh⟩ := render_dims_two false r hwr hhr
  refine ⟨r, himp, hrw, hrh, ?_, ?_, ?_, ?_⟩
  · rw [ImportResult.to_pxl, hpw, hrw]
  · rw [ImportResult.to_pxl, hph, hrh]
  · rw [ImportResult.to_jsonl, hjw, hrw]
  · rw [ImportResult.to_jsonl, hjh, hrh]

/-- Witness: the minimal sprite fixture, rendered, exported, imported and
re-rendered from both serialized forms, keeps its 1×1 dimensions. -/
theorem import_roundtrip_dims_witness :
    firstSprite (parse minimalSpriteLit) = some ⟨"dot", 1, 1,
      .inline [("_", "#00000000"), ("x", "#FF0000")], [⟨"x", .pts [(0, 0)], 0⟩]⟩ ∧
    (∃ r, import_png
        (fun q => if q = "dot.png" then some (render_to_png minimalSpriteLit) else none)
        "dot.png" (some "dot") none = .ok r ∧
      r.width = 1 ∧ r.height = 1 ∧
      (render_to_rgba (ImportResult.to_pxl r)).width = 1 ∧
      (render_to_rgba (ImportResult.to_pxl r)).height = 1 ∧
      (render_to_rgba (ImportResult.to_jsonl r)).width = 1 ∧
      (render_to_rgba (ImportResult.to_jsonl r)).height = 1) :=
  ⟨rfl, import_roundtrip_dims minimalSpriteLit
    ⟨"dot", 1, 1, .inline [("_", "#00000000"), ("x", "#FF0000")], [⟨"x", .pts [(0, 0)], 0⟩]⟩
    (fun q => if q = "dot.png" then some (render_to_png minimalSpriteLit) else none)
    "dot.png" "dot" rfl (by simp)⟩

end Pixelsrc

